import Mathlib

/-!
Shallow embedding of the Tree-Data-Structures repository (BSTree.hpp,
AVLTree.hpp, TreeBase.hpp) and proofs about its specification claims.

Keys are modelled as `Int` (the C++ code is generic over a strictly totally
ordered key type `T`; every algorithm only uses `<`, `>` and `==`).
A `Node*` child pointer is modelled as a subtree, with `nullptr` as `leaf`.
Functions that mutate a `Node*&` in place are modelled as functions
returning the new subtree; functions returning `std::unique_ptr<T>`
(possibly null) return `Option Int`.
-/

/-- A `BSTNode`/`BSTree` of `BSTree.hpp`: a key plus owned left/right
children, `nullptr` modelled as `leaf`. -/
inductive BSTree where
  | leaf
  | node (left : BSTree) (key : Int) (right : BSTree)
deriving DecidableEq

namespace BSTree

/-- `base::Tree::isEmpty`: the tree is empty iff the root pointer is null. -/
def isEmpty : BSTree → Bool
  | leaf => true
  | node _ _ _ => false

/-- `BSTree::get(Node*, T&)`: recursive search, returning the stored key. -/
def get : BSTree → Int → Option Int
  | leaf, _ => none
  | node l k r, key =>
    if key < k then get l key
    else if key > k then get r key
    else some k

/-- `BSTree::getMax`: walk `right` links from the root; `none` on empty. -/
def getMax : BSTree → Option Int
  | leaf => none
  | node _ k leaf => some k
  | node _ _ (node rl rk rr) => getMax (node rl rk rr)

/-- `BSTree::getMin`: walk `left` links from the root; `none` on empty. -/
def getMin : BSTree → Option Int
  | leaf => none
  | node leaf k _ => some k
  | node (node ll lk lr) _ _ => getMin (node ll lk lr)

/-- `BSTree::insert(Node*&, T&)`: recursive insert; the `Bool` is the
return value (`false` = key already present), the tree is the final value
of the mutated `Node*&` slot. -/
def insert : BSTree → Int → Bool × BSTree
  | leaf, key => (true, node leaf key leaf)
  | node l k r, key =>
    if key < k then
      let p := insert l key
      (p.1, node p.2 k r)
    else if key > k then
      let p := insert r key
      (p.1, node l k p.2)
    else (false, node l k r)

/-- The key of the node `BSTree::findMax(Node*&)` returns a reference to
(the rightmost node); junk `0` on the empty tree, on which the C++
function is never invoked. -/
def findMaxKey : BSTree → Int
  | leaf => 0
  | node _ k leaf => k
  | node _ _ (node rl rk rr) => findMaxKey (node rl rk rr)

/-- The key of the node `BSTree::findMin(Node*&)` returns a reference to
(the leftmost node); junk `0` on the empty tree. -/
def findMinKey : BSTree → Int
  | leaf => 0
  | node leaf k _ => k
  | node (node ll lk lr) _ _ => findMinKey (node ll lk lr)

/-- The max-excision step of `BSTree::removeByCopy`:
`Node *&max = findMax(node->left); node->key = max->key;
Node *temp = max->left; delete max; max = temp;` — returns the key of the
rightmost node and the tree with that node replaced by its left child.
Junk on the empty tree (never invoked there). -/
def detachMax : BSTree → Int × BSTree
  | leaf => (0, leaf)
  | node l k leaf => (k, l)
  | node l k (node rl rk rr) =>
    let p := detachMax (node rl rk rr)
    (p.1, node l k p.2)

/-- `BSTree::removeByCopy(Node*&, T&)`. -/
def removeByCopy : BSTree → Int → Option Int × BSTree
  | leaf, _ => (none, leaf)
  | node l k r, key =>
    if k > key then
      let p := removeByCopy l key
      (p.1, node p.2 k r)
    else if k < key then
      let p := removeByCopy r key
      (p.1, node l k p.2)
    else
      match l with
      | leaf => (some k, r)
      | node ll lk lr =>
        let p := detachMax (node ll lk lr)
        (some k, node p.2 p.1 r)

/-- The splice of `BSTree::removeByFusion`:
`findMax(node->left)->right = node->right` — hang `s` as the right child of
the rightmost node of the first tree. -/
def attachMax : BSTree → BSTree → BSTree
  | leaf, s => s
  | node l k leaf, s => node l k s
  | node l k (node rl rk rr), s => node l k (attachMax (node rl rk rr) s)

/-- `BSTree::removeByFusion(Node*&, T&)`. -/
def removeByFusion : BSTree → Int → Option Int × BSTree
  | leaf, _ => (none, leaf)
  | node l k r, key =>
    if k > key then
      let p := removeByFusion l key
      (p.1, node p.2 k r)
    else if k < key then
      let p := removeByFusion r key
      (p.1, node l k p.2)
    else
      match l with
      | leaf => (some k, r)
      | node ll lk lr => (some k, attachMax (node ll lk lr) r)

/-- `BSTree::removeMax`: `Node *&max = findMax(root);
return removeByFusion(max, max->key);` — the descent to the rightmost slot
is `findMax`, and `removeByFusion` is applied to that slot in place. -/
def removeMax : BSTree → Option Int × BSTree
  | leaf => (none, leaf)
  | node l k leaf => removeByFusion (node l k leaf) k
  | node l k (node rl rk rr) =>
    let p := removeMax (node rl rk rr)
    (p.1, node l k p.2)

/-- `BSTree::removeMin`: `Node *&min = findMin(root);
return removeByFusion(min, min->key);`. -/
def removeMin : BSTree → Option Int × BSTree
  | leaf => (none, leaf)
  | node leaf k r => removeByFusion (node leaf k r) k
  | node (node ll lk lr) k r =>
    let p := removeMin (node ll lk lr)
    (p.1, node p.2 k r)

/-- `BSTree::clear`: `destroy(root); root = nullptr;`. -/
def clear (_ : BSTree) : BSTree := leaf

/-- `BSTree::inorder`: left, self, right. -/
def inorder : BSTree → List Int
  | leaf => []
  | node l k r => inorder l ++ k :: inorder r

/-- `BSTree::preorder`: self, left, right. -/
def preorder : BSTree → List Int
  | leaf => []
  | node l k r => k :: (preorder l ++ preorder r)

/-- `BSTree::postorder`: left, right, self. -/
def postorder : BSTree → List Int
  | leaf => []
  | node l k r => postorder l ++ postorder r ++ [k]

/-- Number of nodes of the tree. -/
def size : BSTree → Nat
  | leaf => 0
  | node l _ r => size l + size r + 1

/-- Depth (number of edges from the root) at which the search path for
`x` sits in the tree; `0` if the search falls off at the root or finds it
there. For a key present in a search tree this is its structural depth. -/
def depthOf : BSTree → Int → Nat
  | leaf, _ => 0
  | node l k r, x =>
    if x < k then depthOf l x + 1
    else if k < x then depthOf r x + 1
    else 0

/-- The subtree rooted at the node where the search for `key` ends
(following the same comparisons as `removeByCopy`/`removeByFusion`);
`leaf` if the key is absent. -/
def subtreeOf : BSTree → Int → BSTree
  | leaf, _ => leaf
  | node l k r, key =>
    if k > key then subtreeOf l key
    else if k < key then subtreeOf r key
    else node l k r

/-- Left child of the root (`nullptr`-as-`leaf` for the empty tree). -/
def leftSub : BSTree → BSTree
  | leaf => leaf
  | node l _ _ => l

/-- Right child of the root. -/
def rightSub : BSTree → BSTree
  | leaf => leaf
  | node _ _ r => r

end BSTree

/-- An `AVLNode`/`AVLTree` of `AVLTree.hpp`: a `BSTNode` plus the cached
`int height` field (initialised to `1` by the node constructor). -/
inductive AVLTree where
  | leaf
  | node (left : AVLTree) (key : Int) (height : Int) (right : AVLTree)
deriving DecidableEq

namespace AVLTree

/-- Cached-height read `node ? node->height : 0` (as used by
`AVLNode::updateHeight` and `AVLTree::bFactor`). -/
def hc : AVLTree → Int
  | leaf => 0
  | node _ _ h _ => h

/-- `base::Tree::isEmpty` on the AVL tree. -/
def isEmpty : AVLTree → Bool
  | leaf => true
  | node _ _ _ _ => false

/-- `BSTree::get` as inherited by `AVLTree`. -/
def get : AVLTree → Int → Option Int
  | leaf, _ => none
  | node l k _ r, key =>
    if key < k then get l key
    else if key > k then get r key
    else some k

/-- `BSTree::getMax` as inherited by `AVLTree`. -/
def getMax : AVLTree → Option Int
  | leaf => none
  | node _ k _ leaf => some k
  | node _ _ _ (node rl rk rh rr) => getMax (node rl rk rh rr)

/-- `BSTree::getMin` as inherited by `AVLTree`. -/
def getMin : AVLTree → Option Int
  | leaf => none
  | node leaf k _ _ => some k
  | node (node ll lk lh lr) _ _ _ => getMin (node ll lk lh lr)

/-- `AVLNode::updateHeight` applied to a node about to be rebuilt from
children `l`, `r`: height becomes `max(leftH, rightH) + 1` over the cached
child heights. -/
def updateHeight (l : AVLTree) (k : Int) (r : AVLTree) : AVLTree :=
  node l k (max (hc l) (hc r) + 1) r

/-- `AVLTree::bFactor`: cached left height minus cached right height.
The C++ function is only called on non-null nodes; the `leaf` case is a
junk value `0`. -/
def bFactor : AVLTree → Int
  | leaf => 0
  | node l _ _ r => hc l - hc r

/-- `AVLTree::rotateLeft`. The C++ code dereferences `node->right`
unconditionally; when `node->right` is null (never the case when invoked
under the AVL invariant) the model leaves the tree unchanged. -/
def rotateLeft : AVLTree → AVLTree
  | node l k _ (node rl rk _ rr) =>
    let a := node l k (max (hc l) (hc rl) + 1) rl
    node a rk (max (hc a) (hc rr) + 1) rr
  | t => t

/-- `AVLTree::rotateRight` (mirror of `rotateLeft`). -/
def rotateRight : AVLTree → AVLTree
  | node (node ll lk _ lr) k _ r =>
    let a := node lr k (max (hc lr) (hc r) + 1) r
    node ll lk (max (hc ll) (hc a) + 1) a
  | t => t

/-- `AVLTree::balance`: `updateHeight`, then the four-case rebalancing
collapsed into two rotations with a pre-check. `balance` is only invoked
on non-null nodes; the `leaf` case is for totality. -/
def balance : AVLTree → AVLTree
  | leaf => leaf
  | node l k _ r =>
    let h := max (hc l) (hc r) + 1
    let bf := hc l - hc r
    if bf = 2 then
      let l' := if bFactor l < 0 then rotateLeft l else l
      rotateRight (node l' k h r)
    else if bf = -2 then
      let r' := if bFactor r > 0 then rotateRight r else r
      rotateLeft (node l k h r')
    else node l k h r

/-- `AVLTree::insert(Node*&, T&)`: BST descent with duplicate
short-circuit, then `balance` on each frame of the successful path.
A fresh node carries cached height `1`. -/
def insert : AVLTree → Int → Bool × AVLTree
  | leaf, key => (true, node leaf key 1 leaf)
  | node l k h r, key =>
    if key = k then (false, node l k h r)
    else if key < k then
      let p := insert l key
      if p.1 then (true, balance (node p.2 k h r)) else (false, node p.2 k h r)
    else
      let p := insert r key
      if p.1 then (true, balance (node l k h p.2)) else (false, node l k h p.2)

/-- `AVLTree::pullMax`: detach the rightmost node, rebalancing every
frame on the way back; returns the detached node's key and the new
subtree. Junk on the empty tree (the C++ caller guarantees non-null). -/
def pullMax : AVLTree → Int × AVLTree
  | leaf => (0, leaf)
  | node l k _ leaf => (k, l)
  | node l k h (node rl rk rh rr) =>
    let p := pullMax (node rl rk rh rr)
    (p.1, balance (node l k h p.2))

/-- `AVLTree::remove(Node*&, T&)`: copy-based removal with rebalancing on
the unwind; the not-found path and the single-child splice return without
calling `balance`. -/
def remove : AVLTree → Int → Option Int × AVLTree
  | leaf, _ => (none, leaf)
  | node l k h r, key =>
    if key < k then
      let p := remove l key
      match p.1 with
      | none => (none, node p.2 k h r)
      | some v => (some v, balance (node p.2 k h r))
    else if key > k then
      let p := remove r key
      match p.1 with
      | none => (none, node l k h p.2)
      | some v => (some v, balance (node l k h p.2))
    else
      match l with
      | leaf => (some k, r)
      | node ll lk lh lr =>
        let p := pullMax (node ll lk lh lr)
        (some k, balance (node p.2 p.1 h r))

/-- `AVLTree::removeMax`: `Node *&max = Base::findMax(root);
return remove(max, max->key);` — `remove` is applied in place to the
rightmost slot; the ancestors on the right spine are not revisited. -/
def removeMax : AVLTree → Option Int × AVLTree
  | leaf => (none, leaf)
  | node l k h leaf => remove (node l k h leaf) k
  | node l k h (node rl rk rh rr) =>
    let p := removeMax (node rl rk rh rr)
    (p.1, node l k h p.2)

/-- `AVLTree::removeMin`: `Node *&min = Base::findMin(root);
return remove(min, min->key);`. -/
def removeMin : AVLTree → Option Int × AVLTree
  | leaf => (none, leaf)
  | node leaf k h r => remove (node leaf k h r) k
  | node (node ll lk lh lr) k h r =>
    let p := removeMin (node ll lk lh lr)
    (p.1, node p.2 k h r)

/-- `BSTree::inorder` as inherited by `AVLTree`. -/
def inorder : AVLTree → List Int
  | leaf => []
  | node l k _ r => inorder l ++ k :: inorder r

/-- Number of nodes of the tree. -/
def size : AVLTree → Nat
  | leaf => 0
  | node l _ _ r => size l + size r + 1

/-- Recursively recomputed height: absent child counts 0, a node is one
more than the larger child height. -/
def realHeight : AVLTree → Int
  | leaf => 0
  | node l _ _ r => max (realHeight l) (realHeight r) + 1

/-- Every node's cached `height` field equals `1 + max` of the
recursively computed child heights. -/
def heightsOk : AVLTree → Bool
  | leaf => true
  | node l _ h r =>
    heightsOk l && heightsOk r &&
      decide (h = max (realHeight l) (realHeight r) + 1)

/-- Every node's recomputed child heights differ by at most one. -/
def balancedOk : AVLTree → Bool
  | leaf => true
  | node l _ _ r =>
    balancedOk l && balancedOk r &&
      decide ((realHeight l - realHeight r).natAbs ≤ 1)

/-- The full AVL invariant of the specification. -/
def avlInv (t : AVLTree) : Bool := heightsOk t && balancedOk t

end AVLTree

/-- Insertion of a key into a list at the position a BST insert would put
it (strictly before the first larger element); used to describe the
in-order traversal after `insert`. -/
def insList (key : Int) : List Int → List Int
  | [] => [key]
  | x :: xs =>
    if key < x then key :: x :: xs
    else if x < key then x :: insList key xs
    else x :: xs

namespace BSTree

/-- Fuelled `BSTree::get`: `none` = recursion depth exceeded. -/
def getFuel : Nat → BSTree → Int → Option (Option Int)
  | 0, _, _ => none
  | _ + 1, leaf, _ => some none
  | fuel + 1, node l k r, key =>
    if key < k then getFuel fuel l key
    else if key > k then getFuel fuel r key
    else some (some k)

/-- Fuelled `BSTree::insert`. -/
def insertFuel : Nat → BSTree → Int → Option (Bool × BSTree)
  | 0, _, _ => none
  | _ + 1, leaf, key => some (true, node leaf key leaf)
  | fuel + 1, node l k r, key =>
    if key < k then
      match insertFuel fuel l key with
      | none => none
      | some p => some (p.1, node p.2 k r)
    else if key > k then
      match insertFuel fuel r key with
      | none => none
      | some p => some (p.1, node l k p.2)
    else some (false, node l k r)

/-- Fuelled `BSTree::findMax` (returning the referenced node's key). -/
def findMaxKeyFuel : Nat → BSTree → Option Int
  | 0, _ => none
  | _ + 1, leaf => some 0
  | _ + 1, node _ k leaf => some k
  | fuel + 1, node _ _ (node rl rk rr) => findMaxKeyFuel fuel (node rl rk rr)

/-- Fuelled `BSTree::findMin` (returning the referenced node's key). -/
def findMinKeyFuel : Nat → BSTree → Option Int
  | 0, _ => none
  | _ + 1, leaf => some 0
  | _ + 1, node leaf k _ => some k
  | fuel + 1, node (node ll lk lr) _ _ => findMinKeyFuel fuel (node ll lk lr)

/-- Fuelled `detachMax` (the `findMax`-based excision inside
`removeByCopy`). -/
def detachMaxFuel : Nat → BSTree → Option (Int × BSTree)
  | 0, _ => none
  | _ + 1, leaf => some (0, leaf)
  | _ + 1, node l k leaf => some (k, l)
  | fuel + 1, node l k (node rl rk rr) =>
    match detachMaxFuel fuel (node rl rk rr) with
    | none => none
    | some p => some (p.1, node l k p.2)

/-- Fuelled `BSTree::removeByCopy`. -/
def removeByCopyFuel : Nat → BSTree → Int → Option (Option Int × BSTree)
  | 0, _, _ => none
  | _ + 1, leaf, _ => some (none, leaf)
  | fuel + 1, node l k r, key =>
    if k > key then
      match removeByCopyFuel fuel l key with
      | none => none
      | some p => some (p.1, node p.2 k r)
    else if k < key then
      match removeByCopyFuel fuel r key with
      | none => none
      | some p => some (p.1, node l k p.2)
    else
      match l with
      | leaf => some (some k, r)
      | node ll lk lr =>
        match detachMaxFuel fuel (node ll lk lr) with
        | none => none
        | some p => some (some k, node p.2 p.1 r)

/-- Fuelled `attachMax` (the `findMax`-based splice inside
`removeByFusion`). -/
def attachMaxFuel : Nat → BSTree → BSTree → Option BSTree
  | 0, _, _ => none
  | _ + 1, leaf, s => some s
  | _ + 1, node l k leaf, s => some (node l k s)
  | fuel + 1, node l k (node rl rk rr), s =>
    match attachMaxFuel fuel (node rl rk rr) s with
    | none => none
    | some u => some (node l k u)

/-- Fuelled `BSTree::removeByFusion`. -/
def removeByFusionFuel : Nat → BSTree → Int → Option (Option Int × BSTree)
  | 0, _, _ => none
  | _ + 1, leaf, _ => some (none, leaf)
  | fuel + 1, node l k r, key =>
    if k > key then
      match removeByFusionFuel fuel l key with
      | none => none
      | some p => some (p.1, node p.2 k r)
    else if k < key then
      match removeByFusionFuel fuel r key with
      | none => none
      | some p => some (p.1, node l k p.2)
    else
      match l with
      | leaf => some (some k, r)
      | node ll lk lr =>
        match attachMaxFuel fuel (node ll lk lr) r with
        | none => none
        | some u => some (some k, u)

/-- Fuelled `BSTree::removeMax`. -/
def removeMaxFuel : Nat → BSTree → Option (Option Int × BSTree)
  | 0, _ => none
  | _ + 1, leaf => some (none, leaf)
  | fuel + 1, node l k leaf => removeByFusionFuel fuel (node l k leaf) k
  | fuel + 1, node l k (node rl rk rr) =>
    match removeMaxFuel fuel (node rl rk rr) with
    | none => none
    | some p => some (p.1, node l k p.2)

/-- Fuelled `BSTree::removeMin`. -/
def removeMinFuel : Nat → BSTree → Option (Option Int × BSTree)
  | 0, _ => none
  | _ + 1, leaf => some (none, leaf)
  | fuel + 1, node leaf k r => removeByFusionFuel fuel (node leaf k r) k
  | fuel + 1, node (node ll lk lr) k r =>
    match removeMinFuel fuel (node ll lk lr) with
    | none => none
    | some p => some (p.1, node p.2 k r)

/-- Fuelled `BSTree::destroy` (the recursion behind `clear` and the
destructor). -/
def destroyFuel : Nat → BSTree → Option Unit
  | 0, _ => none
  | _ + 1, leaf => some ()
  | fuel + 1, node l _ r =>
    match destroyFuel fuel l with
    | none => none
    | some _ => destroyFuel fuel r

/-- Fuelled `BSTree::inorder`. -/
def inorderFuel : Nat → BSTree → Option (List Int)
  | 0, _ => none
  | _ + 1, leaf => some []
  | fuel + 1, node l k r =>
    match inorderFuel fuel l with
    | none => none
    | some a =>
      match inorderFuel fuel r with
      | none => none
      | some b => some (a ++ k :: b)

/-- Fuelled `BSTree::preorder`. -/
def preorderFuel : Nat → BSTree → Option (List Int)
  | 0, _ => none
  | _ + 1, leaf => some []
  | fuel + 1, node l k r =>
    match preorderFuel fuel l with
    | none => none
    | some a =>
      match preorderFuel fuel r with
      | none => none
      | some b => some (k :: (a ++ b))

/-- Fuelled `BSTree::postorder`. -/
def postorderFuel : Nat → BSTree → Option (List Int)
  | 0, _ => none
  | _ + 1, leaf => some []
  | fuel + 1, node l k r =>
    match postorderFuel fuel l with
    | none => none
    | some a =>
      match postorderFuel fuel r with
      | none => none
      | some b => some (a ++ b ++ [k])

/-- One round of the C7 drain loop on the BST: `removeMin`, then (if the
tree is still non-empty) `removeMax`, repeated with explicit fuel. Returns
the list of `removeMin` results, the list of `removeMax` results, and the
final tree. -/
def drain : Nat → BSTree → List Int × List Int × BSTree
  | 0, t => ([], [], t)
  | fuel + 1, t =>
    match removeMin t with
    | (none, _) => ([], [], t)
    | (some m, t₁) =>
      match removeMax t₁ with
      | (none, _) => ([m], [], t₁)
      | (some mx, t₂) =>
        let p := drain fuel t₂
        (m :: p.1, mx :: p.2.1, p.2.2)

end BSTree

namespace AVLTree

/-- Fuelled `AVLTree::insert` (`balance` and the rotations are
non-recursive and are called directly). -/
def insertFuel : Nat → AVLTree → Int → Option (Bool × AVLTree)
  | 0, _, _ => none
  | _ + 1, leaf, key => some (true, node leaf key 1 leaf)
  | fuel + 1, node l k h r, key =>
    if key = k then some (false, node l k h r)
    else if key < k then
      match insertFuel fuel l key with
      | none => none
      | some p =>
        some (if p.1 then (true, balance (node p.2 k h r))
              else (false, node p.2 k h r))
    else
      match insertFuel fuel r key with
      | none => none
      | some p =>
        some (if p.1 then (true, balance (node l k h p.2))
              else (false, node l k h p.2))

/-- Fuelled `AVLTree::pullMax`. -/
def pullMaxFuel : Nat → AVLTree → Option (Int × AVLTree)
  | 0, _ => none
  | _ + 1, leaf => some (0, leaf)
  | _ + 1, node l k _ leaf => some (k, l)
  | fuel + 1, node l k h (node rl rk rh rr) =>
    match pullMaxFuel fuel (node rl rk rh rr) with
    | none => none
    | some p => some (p.1, balance (node l k h p.2))

/-- Fuelled `AVLTree::remove`. -/
def removeFuel : Nat → AVLTree → Int → Option (Option Int × AVLTree)
  | 0, _, _ => none
  | _ + 1, leaf, _ => some (none, leaf)
  | fuel + 1, node l k h r, key =>
    if key < k then
      match removeFuel fuel l key with
      | none => none
      | some p =>
        some (match p.1 with
              | none => (none, node p.2 k h r)
              | some v => (some v, balance (node p.2 k h r)))
    else if key > k then
      match removeFuel fuel r key with
      | none => none
      | some p =>
        some (match p.1 with
              | none => (none, node l k h p.2)
              | some v => (some v, balance (node l k h p.2)))
    else
      match l with
      | leaf => some (some k, r)
      | node ll lk lh lr =>
        match pullMaxFuel fuel (node ll lk lh lr) with
        | none => none
        | some p => some (some k, balance (node p.2 p.1 h r))

/-- Fuelled `AVLTree::removeMax`. -/
def removeMaxFuel : Nat → AVLTree → Option (Option Int × AVLTree)
  | 0, _ => none
  | _ + 1, leaf => some (none, leaf)
  | fuel + 1, node l k h leaf => removeFuel fuel (node l k h leaf) k
  | fuel + 1, node l k h (node rl rk rh rr) =>
    match removeMaxFuel fuel (node rl rk rh rr) with
    | none => none
    | some p => some (p.1, node l k h p.2)

/-- Fuelled `AVLTree::removeMin`. -/
def removeMinFuel : Nat → AVLTree → Option (Option Int × AVLTree)
  | 0, _ => none
  | _ + 1, leaf => some (none, leaf)
  | fuel + 1, node leaf k h r => removeFuel fuel (node leaf k h r) k
  | fuel + 1, node (node ll lk lh lr) k h r =>
    match removeMinFuel fuel (node ll lk lh lr) with
    | none => none
    | some p => some (p.1, node p.2 k h r)

/-- The C7 drain loop on the AVL tree (mirror of `BSTree.drain`). -/
def drain : Nat → AVLTree → List Int × List Int × AVLTree
  | 0, t => ([], [], t)
  | fuel + 1, t =>
    match removeMin t with
    | (none, _) => ([], [], t)
    | (some m, t₁) =>
      match removeMax t₁ with
      | (none, _) => ([m], [], t₁)
      | (some mx, t₂) =>
        let p := drain fuel t₂
        (m :: p.1, mx :: p.2.1, p.2.2)

end AVLTree

/-- The AVL tree the code builds by inserting 1, 2, 3, 4 into an empty
tree (used as the failing input of claim C1). -/
def avlFour : AVLTree :=
  ((((AVLTree.leaf.insert 1).2.insert 2).2.insert 3).2.insert 4).2

/-- A concrete BST whose root `10` has two children, left subtree
`5(1,7)` and right child `20` (used for claim C3). -/
def bstC3 : BSTree :=
  BSTree.node
    (BSTree.node (BSTree.node .leaf 1 .leaf) 5 (BSTree.node .leaf 7 .leaf))
    10 (BSTree.node .leaf 20 .leaf)

theorem mem_insList {a key : Int} :
    ∀ {xs : List Int}, a ∈ insList key xs ↔ a = key ∨ a ∈ xs := by
  intro xs
  induction xs with
  | nil => simp [insList]
  | cons x xs ih =>
    by_cases h1 : key < x
    · simp [insList, h1]
    · by_cases h2 : x < key
      · simp [insList, h1, h2, ih]
        tauto
      · have hxk : x = key := le_antisymm (not_lt.mp h1) (not_lt.mp h2)
        subst hxk
        simp [insList, h1, h2]

theorem insList_before {key b : Int} (ys : List Int) (h : key < b) :
    ∀ xs : List Int, insList key (xs ++ b :: ys) = insList key xs ++ b :: ys := by
  intro xs
  induction xs with
  | nil => simp [insList, h]
  | cons x xs ih =>
    by_cases h1 : key < x
    · simp [insList, h1]
    · by_cases h2 : x < key
      · simp [insList, h1, h2, ih]
      · simp [insList, h1, h2]

theorem insList_after {key : Int} (ys : List Int) :
    ∀ xs : List Int, (∀ x ∈ xs, x < key) →
      insList key (xs ++ ys) = xs ++ insList key ys := by
  intro xs
  induction xs with
  | nil => simp
  | cons x xs ih =>
    intro hall
    have hx : x < key := hall x (by simp)
    have h1 : ¬ key < x := not_lt.mpr hx.le
    simp only [List.cons_append, insList, if_neg h1, if_pos hx, List.append_eq]
    rw [ih (fun y hy => hall y (by simp [hy]))]

theorem pairwise_insList {key : Int} :
    ∀ {xs : List Int}, List.Pairwise (· < ·) xs →
      List.Pairwise (· < ·) (insList key xs) := by
  intro xs
  induction xs with
  | nil => simp [insList]
  | cons x xs ih =>
    intro hp
    rw [List.pairwise_cons] at hp
    by_cases h1 : key < x
    · rw [insList, if_pos h1, List.pairwise_cons]
      refine ⟨?_, List.pairwise_cons.mpr hp⟩
      intro y hy
      rcases List.mem_cons.mp hy with rfl | hy
      · exact h1
      · exact lt_trans h1 (hp.1 y hy)
    · by_cases h2 : x < key
      · rw [insList, if_neg h1, if_pos h2, List.pairwise_cons]
        refine ⟨?_, ih hp.2⟩
        intro y hy
        rcases mem_insList.mp hy with rfl | hy
        · exact h2
        · exact hp.1 y hy
      · rw [insList, if_neg h1, if_neg h2]
        exact List.pairwise_cons.mpr hp

theorem perm_insList {key : Int} :
    ∀ {xs : List Int}, key ∉ xs → (insList key xs).Perm (key :: xs) := by
  intro xs
  induction xs with
  | nil => simp [insList]
  | cons x xs ih =>
    intro hnm
    have hxk : x ≠ key := fun h => hnm (by simp [h])
    by_cases h1 : key < x
    · rw [insList, if_pos h1]
    · by_cases h2 : x < key
      · rw [insList, if_neg h1, if_pos h2]
        exact (List.Perm.cons x (ih (fun h => hnm (by simp [h])))).trans
          (List.Perm.swap key x xs)
      · exact absurd (le_antisymm (not_lt.mp h1) (not_lt.mp h2)) hxk

theorem erase_insList {key : Int} :
    ∀ {xs : List Int}, key ∉ xs → (insList key xs).erase key = xs := by
  intro xs
  induction xs with
  | nil => simp [insList]
  | cons x xs ih =>
    intro hnm
    have hxk : x ≠ key := fun h => hnm (by simp [h])
    by_cases h1 : key < x
    · rw [insList, if_pos h1, List.erase_cons_head]
    · by_cases h2 : x < key
      · rw [insList, if_neg h1, if_pos h2,
          List.erase_cons_tail (by simpa using hxk)]
        rw [ih (fun h => hnm (by simp [h]))]
      · exact absurd (le_antisymm (not_lt.mp h1) (not_lt.mp h2)) hxk

theorem bst_inorder_nil {t : BSTree} : t.inorder = [] ↔ t = .leaf := by
  cases t <;> simp [BSTree.inorder]

theorem bst_mem_node {l r : BSTree} {k x : Int} :
    x ∈ (BSTree.node l k r).inorder ↔
      x ∈ l.inorder ∨ x = k ∨ x ∈ r.inorder := by
  simp [BSTree.inorder]

theorem bst_pairwise_node {l r : BSTree} {k : Int} :
    List.Pairwise (· < ·) ((BSTree.node l k r).inorder) ↔
      List.Pairwise (· < ·) l.inorder ∧ List.Pairwise (· < ·) r.inorder ∧
        (∀ x ∈ l.inorder, x < k) ∧ ∀ y ∈ r.inorder, k < y := by
  constructor
  · intro h
    rw [BSTree.inorder, List.pairwise_append] at h
    obtain ⟨hl, hkr, hx⟩ := h
    rw [List.pairwise_cons] at hkr
    exact ⟨hl, hkr.2, fun x hx' => hx x hx' k (by simp), hkr.1⟩
  · rintro ⟨hl, hr, hlk, hkr⟩
    rw [BSTree.inorder, List.pairwise_append]
    refine ⟨hl, List.pairwise_cons.mpr ⟨hkr, hr⟩, ?_⟩
    intro x hx y hy
    rcases List.mem_cons.mp hy with rfl | hy
    · exact hlk x hx
    · exact lt_trans (hlk x hx) (hkr y hy)

theorem bst_insert_inorder {t : BSTree} {key : Int}
    (hs : List.Pairwise (· < ·) t.inorder) :
    (t.insert key).2.inorder = insList key t.inorder := by
  induction t with
  | leaf => simp [BSTree.insert, BSTree.inorder, insList]
  | node l k r ihl ihr =>
    rw [bst_pairwise_node] at hs
    obtain ⟨hl, hr, hlk, hkr⟩ := hs
    rcases lt_trichotomy key k with h | h | h
    · rw [BSTree.inorder, insList_before _ h]
      simp only [BSTree.insert, if_pos h]
      rw [BSTree.inorder, ihl hl]
    · subst h
      have h1 : ¬ key < key := lt_irrefl key
      simp only [BSTree.insert, gt_iff_lt, if_neg h1]
      rw [BSTree.inorder, insList_after _ _ hlk]
      simp [insList]
    · have h1 : ¬ key < k := not_lt.mpr h.le
      simp only [BSTree.insert, gt_iff_lt, if_neg h1, if_pos h]
      rw [BSTree.inorder, BSTree.inorder, ihr hr,
        insList_after _ _ (fun x hx => lt_trans (hlk x hx) h)]
      simp [insList, h, h1]

theorem bst_insert_mem {t : BSTree} {key : Int}
    (hs : List.Pairwise (· < ·) t.inorder) (hmem : key ∈ t.inorder) :
    t.insert key = (false, t) := by
  induction t with
  | leaf => simp [BSTree.inorder] at hmem
  | node l k r ihl ihr =>
    rw [bst_pairwise_node] at hs
    obtain ⟨hl, hr, hlk, hkr⟩ := hs
    rcases bst_mem_node.mp hmem with hm | rfl | hm
    · have h : key < k := hlk key hm
      simp [BSTree.insert, h, ihl hl hm]
    · simp [BSTree.insert]
    · have h : k < key := hkr key hm
      simp [BSTree.insert, not_lt.mpr h.le, h, ihr hr hm]

theorem bst_insert_not_mem {t : BSTree} {key : Int} (hnm : key ∉ t.inorder) :
    (t.insert key).1 = true := by
  induction t with
  | leaf => simp [BSTree.insert]
  | node l k r ihl ihr =>
    have hk : key ≠ k := fun h => hnm (bst_mem_node.mpr (Or.inr (Or.inl h)))
    rcases lt_trichotomy key k with h | h | h
    · have ih := ihl (fun hm => hnm (bst_mem_node.mpr (Or.inl hm)))
      simp [BSTree.insert, h, ih]
    · exact absurd h hk
    · have ih := ihr (fun hm => hnm (bst_mem_node.mpr (Or.inr (Or.inr hm))))
      simp [BSTree.insert, not_lt.mpr h.le, h, ih]

theorem bst_removeByCopy_not_mem {t : BSTree} {key : Int}
    (hnm : key ∉ t.inorder) : t.removeByCopy key = (none, t) := by
  induction t with
  | leaf => rfl
  | node l k r ihl ihr =>
    have hk : k ≠ key := fun h => hnm (bst_mem_node.mpr (Or.inr (Or.inl h.symm)))
    rcases lt_trichotomy key k with h | h | h
    · have ih := ihl (fun hm => hnm (bst_mem_node.mpr (Or.inl hm)))
      simp [BSTree.removeByCopy, h, ih]
    · exact absurd h.symm hk
    · have ih := ihr (fun hm => hnm (bst_mem_node.mpr (Or.inr (Or.inr hm))))
      simp [BSTree.removeByCopy, h, not_lt.mpr h.le, ih]

theorem bst_removeByFusion_not_mem {t : BSTree} {key : Int}
    (hnm : key ∉ t.inorder) : t.removeByFusion key = (none, t) := by
  induction t with
  | leaf => rfl
  | node l k r ihl ihr =>
    have hk : k ≠ key := fun h => hnm (bst_mem_node.mpr (Or.inr (Or.inl h.symm)))
    rcases lt_trichotomy key k with h | h | h
    · have ih := ihl (fun hm => hnm (bst_mem_node.mpr (Or.inl hm)))
      simp [BSTree.removeByFusion, h, ih]
    · exact absurd h.symm hk
    · have ih := ihr (fun hm => hnm (bst_mem_node.mpr (Or.inr (Or.inr hm))))
      simp [BSTree.removeByFusion, h, not_lt.mpr h.le, ih]

theorem bst_detachMax_key : ∀ t : BSTree, (t.detachMax).1 = t.findMaxKey := by
  intro t
  induction t with
  | leaf => rfl
  | node l k r ihl ihr =>
    cases r with
    | leaf => rfl
    | node rl rk rr => simp [BSTree.detachMax, BSTree.findMaxKey, ihr]

theorem bst_detachMax_inorder {t : BSTree} (h : t ≠ .leaf) :
    (t.detachMax).2.inorder ++ [(t.detachMax).1] = t.inorder := by
  induction t with
  | leaf => exact absurd rfl h
  | node l k r ihl ihr =>
    cases r with
    | leaf => simp [BSTree.detachMax, BSTree.inorder]
    | node rl rk rr =>
      have ih := ihr (by simp)
      simp only [BSTree.detachMax, BSTree.inorder, List.append_assoc,
        List.cons_append, List.nil_append] at ih ⊢
      rw [ih]

theorem bst_attachMax_inorder : ∀ (t s : BSTree),
    (t.attachMax s).inorder = t.inorder ++ s.inorder := by
  intro t s
  induction t with
  | leaf => simp [BSTree.attachMax, BSTree.inorder]
  | node l k r ihl ihr =>
    cases r with
    | leaf => simp [BSTree.attachMax, BSTree.inorder]
    | node rl rk rr => simp [BSTree.attachMax, BSTree.inorder, ihr]

theorem bst_removeByCopy_inorder {t : BSTree} {key : Int}
    (hs : List.Pairwise (· < ·) t.inorder) :
    (t.removeByCopy key).2.inorder = t.inorder.erase key ∧
      (t.removeByCopy key).1 = if key ∈ t.inorder then some key else none := by
  induction t with
  | leaf => simp [BSTree.removeByCopy, BSTree.inorder]
  | node l k r ihl ihr =>
    rw [bst_pairwise_node] at hs
    obtain ⟨hl, hr, hlk, hkr⟩ := hs
    rcases lt_trichotomy key k with h | h | h
    · obtain ⟨ih1, ih2⟩ := ihl hl
      have hmemr : key ∉ r.inorder := fun hm =>
        absurd (hkr key hm) (not_lt.mpr h.le)
      have hkk : key ≠ k := ne_of_lt h
      simp only [BSTree.removeByCopy, gt_iff_lt, if_pos h]
      constructor
      · rw [BSTree.inorder, BSTree.inorder, ih1]
        by_cases hm : key ∈ l.inorder
        · rw [List.erase_append_left _ hm]
        · rw [List.erase_of_not_mem hm, List.erase_append_right _ hm,
            List.erase_cons_tail (by simpa using hkk.symm),
            List.erase_of_not_mem hmemr]
      · rw [ih2]
        by_cases hm : key ∈ l.inorder
        · simp [bst_mem_node, hm]
        · simp [bst_mem_node, hm, hkk, hmemr]
    · subst h
      have h1 : ¬ key > key := lt_irrefl key
      have hml : key ∉ l.inorder := fun hm => absurd (hlk key hm) h1
      simp only [BSTree.removeByCopy, gt_iff_lt, if_neg h1]
      cases l with
      | leaf =>
        constructor
        · simp [BSTree.inorder, List.erase_cons_head]
        · simp [bst_mem_node]
      | node ll lk lr =>
        have hd := bst_detachMax_inorder (t := BSTree.node ll lk lr) (by simp)
        constructor
        · rw [BSTree.inorder, BSTree.inorder,
            List.erase_append_right _ hml, List.erase_cons_head]
          rw [← hd, List.append_assoc, List.cons_append, List.nil_append]
        · simp [bst_mem_node]
    · obtain ⟨ih1, ih2⟩ := ihr hr
      have hmeml : key ∉ l.inorder := fun hm =>
        absurd (hlk key hm) (not_lt.mpr h.le)
      have hkk : k ≠ key := ne_of_lt h
      have h1 : ¬ k > key := not_lt.mpr h.le
      simp only [BSTree.removeByCopy, gt_iff_lt, if_neg h1, if_pos h]
      constructor
      · rw [BSTree.inorder, BSTree.inorder, ih1,
          List.erase_append_right _ hmeml,
          List.erase_cons_tail (by simpa using hkk)]
      · rw [ih2]
        by_cases hm : key ∈ r.inorder
        · simp [bst_mem_node, hm]
        · simp [bst_mem_node, hm, hkk.symm, hmeml]

theorem bst_removeByFusion_inorder {t : BSTree} {key : Int}
    (hs : List.Pairwise (· < ·) t.inorder) :
    (t.removeByFusion key).2.inorder = t.inorder.erase key ∧
      (t.removeByFusion key).1 = if key ∈ t.inorder then some key else none := by
  induction t with
  | leaf => simp [BSTree.removeByFusion, BSTree.inorder]
  | node l k r ihl ihr =>
    rw [bst_pairwise_node] at hs
    obtain ⟨hl, hr, hlk, hkr⟩ := hs
    rcases lt_trichotomy key k with h | h | h
    · obtain ⟨ih1, ih2⟩ := ihl hl
      have hmemr : key ∉ r.inorder := fun hm =>
        absurd (hkr key hm) (not_lt.mpr h.le)
      have hkk : key ≠ k := ne_of_lt h
      simp only [BSTree.removeByFusion, gt_iff_lt, if_pos h]
      constructor
      · rw [BSTree.inorder, BSTree.inorder, ih1]
        by_cases hm : key ∈ l.inorder
        · rw [List.erase_append_left _ hm]
        · rw [List.erase_of_not_mem hm, List.erase_append_right _ hm,
            List.erase_cons_tail (by simpa using hkk.symm),
            List.erase_of_not_mem hmemr]
      · rw [ih2]
        by_cases hm : key ∈ l.inorder
        · simp [bst_mem_node, hm]
        · simp [bst_mem_node, hm, hkk, hmemr]
    · subst h
      have h1 : ¬ key > key := lt_irrefl key
      have hml : key ∉ l.inorder := fun hm => absurd (hlk key hm) h1
      simp only [BSTree.removeByFusion, gt_iff_lt, if_neg h1]
      cases l with
      | leaf =>
        constructor
        · simp [BSTree.inorder, List.erase_cons_head]
        · simp [bst_mem_node]
      | node ll lk lr =>
        constructor
        · rw [BSTree.inorder, bst_attachMax_inorder,
            List.erase_append_right _ hml, List.erase_cons_head]
        · simp [bst_mem_node]
    · obtain ⟨ih1, ih2⟩ := ihr hr
      have hmeml : key ∉ l.inorder := fun hm =>
        absurd (hlk key hm) (not_lt.mpr h.le)
      have hkk : k ≠ key := ne_of_lt h
      have h1 : ¬ k > key := not_lt.mpr h.le
      simp only [BSTree.removeByFusion, gt_iff_lt, if_neg h1, if_pos h]
      constructor
      · rw [BSTree.inorder, BSTree.inorder, ih1,
          List.erase_append_right _ hmeml,
          List.erase_cons_tail (by simpa using hkk)]
      · rw [ih2]
        by_cases hm : key ∈ r.inorder
        · simp [bst_mem_node, hm]
        · simp [bst_mem_node, hm, hkk.symm, hmeml]

theorem bst_removeMax_eq {t : BSTree} (h : t ≠ .leaf) :
    (t.removeMax).1 = some t.findMaxKey ∧
      t.inorder = (t.removeMax).2.inorder ++ [t.findMaxKey] := by
  induction t with
  | leaf => exact absurd rfl h
  | node l k r ihl ihr =>
    cases r with
    | leaf =>
      cases l with
      | leaf =>
        constructor <;>
          simp [BSTree.removeMax, BSTree.removeByFusion, BSTree.findMaxKey,
            BSTree.inorder]
      | node ll lk lr =>
        constructor
        · simp [BSTree.removeMax, BSTree.removeByFusion, BSTree.findMaxKey]
        · simp [BSTree.removeMax, BSTree.removeByFusion, BSTree.findMaxKey,
            BSTree.inorder, bst_attachMax_inorder]
    | node rl rk rr =>
      obtain ⟨ih1, ih2⟩ := ihr (by simp)
      constructor
      · simp only [BSTree.removeMax, BSTree.findMaxKey]
        exact ih1
      · have e1 : (BSTree.node l k (BSTree.node rl rk rr)).inorder
            = l.inorder ++ k :: (BSTree.node rl rk rr).inorder := rfl
        rw [e1, ih2]
        simp only [BSTree.removeMax, BSTree.findMaxKey, BSTree.inorder]
        simp [List.append_assoc]

theorem bst_removeMin_eq {t : BSTree} (h : t ≠ .leaf) :
    (t.removeMin).1 = some t.findMinKey ∧
      t.inorder = t.findMinKey :: (t.removeMin).2.inorder := by
  induction t with
  | leaf => exact absurd rfl h
  | node l k r ihl ihr =>
    cases l with
    | leaf =>
      constructor <;>
        simp [BSTree.removeMin, BSTree.removeByFusion, BSTree.findMinKey,
          BSTree.inorder]
    | node ll lk lr =>
      obtain ⟨ih1, ih2⟩ := ihl (by simp)
      constructor
      · simp only [BSTree.removeMin, BSTree.findMinKey]
        exact ih1
      · have e1 : (BSTree.node (BSTree.node ll lk lr) k r).inorder
            = (BSTree.node ll lk lr).inorder ++ k :: r.inorder := rfl
        rw [e1, ih2]
        simp only [BSTree.removeMin, BSTree.findMinKey, BSTree.inorder]
        simp

theorem avl_rotateLeft_inorder :
    ∀ t : AVLTree, (AVLTree.rotateLeft t).inorder = t.inorder := by
  intro t
  cases t with
  | leaf => rfl
  | node l k h r =>
    cases r with
    | leaf => rfl
    | node rl rk rh rr =>
      simp [AVLTree.rotateLeft, AVLTree.inorder, List.append_assoc]

theorem avl_rotateRight_inorder :
    ∀ t : AVLTree, (AVLTree.rotateRight t).inorder = t.inorder := by
  intro t
  cases t with
  | leaf => rfl
  | node l k h r =>
    cases l with
    | leaf => rfl
    | node ll lk lh lr =>
      simp [AVLTree.rotateRight, AVLTree.inorder, List.append_assoc]

theorem avl_balance_inorder :
    ∀ t : AVLTree, (AVLTree.balance t).inorder = t.inorder := by
  intro t
  cases t with
  | leaf => rfl
  | node l k h r =>
    simp only [AVLTree.balance]
    split
    · rw [avl_rotateRight_inorder]
      split <;> simp [AVLTree.inorder, avl_rotateLeft_inorder]
    · split
      · rw [avl_rotateLeft_inorder]
        split <;> simp [AVLTree.inorder, avl_rotateRight_inorder]
      · simp [AVLTree.inorder]

theorem bst_removeMin_none {t t' : BSTree} (h : t.removeMin = (none, t')) :
    t = .leaf := by
  cases t with
  | leaf => rfl
  | node l k r =>
    obtain ⟨h1, -⟩ := bst_removeMin_eq (t := BSTree.node l k r) (by simp)
    rw [h] at h1
    exact absurd h1 (by simp)

theorem bst_removeMin_some {t t' : BSTree} {m : Int}
    (h : t.removeMin = (some m, t')) : t.inorder = m :: t'.inorder := by
  cases t with
  | leaf => exact absurd h (by simp [BSTree.removeMin])
  | node l k r =>
    obtain ⟨h1, h2⟩ := bst_removeMin_eq (t := BSTree.node l k r) (by simp)
    rw [h] at h1 h2
    simp only [Option.some.injEq] at h1
    rw [h2, h1]

theorem bst_removeMax_none {t t' : BSTree} (h : t.removeMax = (none, t')) :
    t = .leaf := by
  cases t with
  | leaf => rfl
  | node l k r =>
    obtain ⟨h1, -⟩ := bst_removeMax_eq (t := BSTree.node l k r) (by simp)
    rw [h] at h1
    exact absurd h1 (by simp)

theorem bst_removeMax_some {t t' : BSTree} {m : Int}
    (h : t.removeMax = (some m, t')) : t.inorder = t'.inorder ++ [m] := by
  cases t with
  | leaf => exact absurd h (by simp [BSTree.removeMax])
  | node l k r =>
    obtain ⟨h1, h2⟩ := bst_removeMax_eq (t := BSTree.node l k r) (by simp)
    rw [h] at h1 h2
    simp only [Option.some.injEq] at h1
    rw [h2, h1]

theorem avl_inorder_nil {t : AVLTree} : t.inorder = [] ↔ t = .leaf := by
  cases t <;> simp [AVLTree.inorder]

theorem avl_mem_node {l r : AVLTree} {k h x : Int} :
    x ∈ (AVLTree.node l k h r).inorder ↔
      x ∈ l.inorder ∨ x = k ∨ x ∈ r.inorder := by
  simp [AVLTree.inorder]

theorem avl_pairwise_node {l r : AVLTree} {k h : Int} :
    List.Pairwise (· < ·) ((AVLTree.node l k h r).inorder) ↔
      List.Pairwise (· < ·) l.inorder ∧ List.Pairwise (· < ·) r.inorder ∧
        (∀ x ∈ l.inorder, x < k) ∧ ∀ y ∈ r.inorder, k < y := by
  constructor
  · intro hp
    rw [AVLTree.inorder, List.pairwise_append] at hp
    obtain ⟨hl, hkr, hx⟩ := hp
    rw [List.pairwise_cons] at hkr
    exact ⟨hl, hkr.2, fun x hx' => hx x hx' k (by simp), hkr.1⟩
  · rintro ⟨hl, hr, hlk, hkr⟩
    rw [AVLTree.inorder, List.pairwise_append]
    refine ⟨hl, List.pairwise_cons.mpr ⟨hkr, hr⟩, ?_⟩
    intro x hx y hy
    rcases List.mem_cons.mp hy with rfl | hy
    · exact hlk x hx
    · exact lt_trans (hlk x hx) (hkr y hy)

theorem avl_insert_inorder {t : AVLTree} {key : Int}
    (hs : List.Pairwise (· < ·) t.inorder) :
    (t.insert key).2.inorder = insList key t.inorder := by
  induction t with
  | leaf => simp [AVLTree.insert, AVLTree.inorder, insList]
  | node l k h r ihl ihr =>
    rw [avl_pairwise_node] at hs
    obtain ⟨hl, hr, hlk, hkr⟩ := hs
    rcases lt_trichotomy key k with hlt | heq | hgt
    · have hne : key ≠ k := ne_of_lt hlt
      rw [AVLTree.inorder, insList_before _ hlt]
      simp only [AVLTree.insert, if_neg hne, if_pos hlt]
      cases hp : (l.insert key).1 <;>
        simp [hp, AVLTree.inorder, avl_balance_inorder, ihl hl]
    · subst heq
      simp only [AVLTree.insert, if_pos rfl]
      rw [AVLTree.inorder, insList_after _ _ hlk]
      simp [insList, AVLTree.inorder]
    · have hne : key ≠ k := (ne_of_lt hgt).symm
      have h1 : ¬ key < k := not_lt.mpr hgt.le
      simp only [AVLTree.insert, if_neg hne, if_neg h1]
      rw [AVLTree.inorder,
        insList_after _ _ (fun x hx => lt_trans (hlk x hx) hgt)]
      cases hp : (r.insert key).1 <;>
        simp [hp, AVLTree.inorder, avl_balance_inorder, ihr hr, insList,
          hgt, h1]

theorem avl_insert_mem {t : AVLTree} {key : Int}
    (hs : List.Pairwise (· < ·) t.inorder) (hmem : key ∈ t.inorder) :
    t.insert key = (false, t) := by
  induction t with
  | leaf => simp [AVLTree.inorder] at hmem
  | node l k h r ihl ihr =>
    rw [avl_pairwise_node] at hs
    obtain ⟨hl, hr, hlk, hkr⟩ := hs
    rcases avl_mem_node.mp hmem with hm | rfl | hm
    · have hlt : key < k := hlk key hm
      simp [AVLTree.insert, ne_of_lt hlt, hlt, ihl hl hm]
    · simp [AVLTree.insert]
    · have hgt : k < key := hkr key hm
      simp [AVLTree.insert, (ne_of_lt hgt).symm, not_lt.mpr hgt.le,
        ihr hr hm]

theorem avl_insert_not_mem {t : AVLTree} {key : Int}
    (hnm : key ∉ t.inorder) : (t.insert key).1 = true := by
  induction t with
  | leaf => simp [AVLTree.insert]
  | node l k h r ihl ihr =>
    have hk : key ≠ k := fun hh => hnm (avl_mem_node.mpr (Or.inr (Or.inl hh)))
    rcases lt_trichotomy key k with hlt | heq | hgt
    · have ih := ihl (fun hm => hnm (avl_mem_node.mpr (Or.inl hm)))
      cases hp : (l.insert key).1
      · rw [hp] at ih; exact absurd ih (by simp)
      · simp [AVLTree.insert, hk, hlt, hp]
    · exact absurd heq hk
    · have ih := ihr (fun hm => hnm (avl_mem_node.mpr (Or.inr (Or.inr hm))))
      cases hp : (r.insert key).1
      · rw [hp] at ih; exact absurd ih (by simp)
      · simp [AVLTree.insert, hk, not_lt.mpr hgt.le, hp]

theorem avl_pullMax_inorder {t : AVLTree} (h : t ≠ .leaf) :
    (t.pullMax).2.inorder ++ [(t.pullMax).1] = t.inorder := by
  induction t with
  | leaf => exact absurd rfl h
  | node l k hh r ihl ihr =>
    cases r with
    | leaf => simp [AVLTree.pullMax, AVLTree.inorder]
    | node rl rk rh rr =>
      have ih := ihr (by simp)
      simp only [AVLTree.pullMax, AVLTree.inorder, avl_balance_inorder,
        List.append_assoc, List.cons_append, List.nil_append] at ih ⊢
      rw [ih]

theorem avl_remove_not_mem {t : AVLTree} {key : Int}
    (hnm : key ∉ t.inorder) : t.remove key = (none, t) := by
  induction t with
  | leaf => rfl
  | node l k h r ihl ihr =>
    have hk : key ≠ k := fun hh => hnm (avl_mem_node.mpr (Or.inr (Or.inl hh)))
    rcases lt_trichotomy key k with hlt | heq | hgt
    · have ih := ihl (fun hm => hnm (avl_mem_node.mpr (Or.inl hm)))
      simp [AVLTree.remove, hlt, ih]
    · exact absurd heq hk
    · have ih := ihr (fun hm => hnm (avl_mem_node.mpr (Or.inr (Or.inr hm))))
      simp [AVLTree.remove, hgt, not_lt.mpr hgt.le, ih]

theorem avl_remove_inorder {t : AVLTree} {key : Int}
    (hs : List.Pairwise (· < ·) t.inorder) :
    (t.remove key).2.inorder = t.inorder.erase key ∧
      (t.remove key).1 = if key ∈ t.inorder then some key else none := by
  induction t with
  | leaf => simp [AVLTree.remove, AVLTree.inorder]
  | node l k h r ihl ihr =>
    rw [avl_pairwise_node] at hs
    obtain ⟨hl, hr, hlk, hkr⟩ := hs
    rcases lt_trichotomy key k with hlt | heq | hgt
    · have hkk : key ≠ k := ne_of_lt hlt
      have hmemr : key ∉ r.inorder := fun hm =>
        absurd (hkr key hm) (not_lt.mpr hlt.le)
      by_cases hm : key ∈ l.inorder
      · obtain ⟨ih1, ih2⟩ := ihl hl
        rw [if_pos hm] at ih2
        simp only [AVLTree.remove, if_pos hlt, ih2]
        constructor
        · rw [AVLTree.inorder, avl_balance_inorder, AVLTree.inorder, ih1,
            List.erase_append_left _ hm]
        · simp [avl_mem_node, hm]
      · have hnm := @avl_remove_not_mem l key hm
        simp only [AVLTree.remove, if_pos hlt, hnm]
        constructor
        · rw [List.erase_of_not_mem (fun hmm => by
              rcases avl_mem_node.mp hmm with hh | hh | hh
              · exact hm hh
              · exact hkk hh
              · exact hmemr hh)]
        · simp [avl_mem_node, hm, hkk, hmemr]
    · subst heq
      have h1 : ¬ key < key := lt_irrefl key
      have hml : key ∉ l.inorder := fun hm => absurd (hlk key hm) h1
      simp only [AVLTree.remove, if_neg h1, gt_iff_lt]
      cases l with
      | leaf =>
        constructor
        · simp [AVLTree.inorder, List.erase_cons_head]
        · simp [avl_mem_node]
      | node ll lk lh lr =>
        have hp := avl_pullMax_inorder (t := AVLTree.node ll lk lh lr)
          (by simp)
        constructor
        · rw [AVLTree.inorder, avl_balance_inorder, AVLTree.inorder,
            List.erase_append_right _ hml, List.erase_cons_head, ← hp,
            List.append_assoc, List.cons_append, List.nil_append]
        · simp [avl_mem_node]
    · have hkk : k ≠ key := ne_of_lt hgt
      have h1 : ¬ key < k := not_lt.mpr hgt.le
      have hmeml : key ∉ l.inorder := fun hm =>
        absurd (hlk key hm) (not_lt.mpr hgt.le)
      by_cases hm : key ∈ r.inorder
      · obtain ⟨ih1, ih2⟩ := ihr hr
        rw [if_pos hm] at ih2
        simp only [AVLTree.remove, if_neg h1, gt_iff_lt, if_pos hgt, ih2]
        constructor
        · rw [AVLTree.inorder, avl_balance_inorder, AVLTree.inorder, ih1,
            List.erase_append_right _ hmeml,
            List.erase_cons_tail (by simpa using hkk)]
        · simp [avl_mem_node, hm]
      · have hnm := @avl_remove_not_mem r key hm
        simp only [AVLTree.remove, if_neg h1, gt_iff_lt, if_pos hgt, hnm]
        constructor
        · rw [List.erase_of_not_mem (fun hmm => by
              rcases avl_mem_node.mp hmm with hh | hh | hh
              · exact hmeml hh
              · exact hkk hh.symm
              · exact hm hh)]
        · simp [avl_mem_node, hmeml, hkk.symm, hm]

theorem avl_removeMin_none : ∀ (t t' : AVLTree),
    t.removeMin = (none, t') → t = .leaf := by
  intro t
  induction t with
  | leaf => intro t' _; rfl
  | node l k hh r ihl ihr =>
    intro t' h
    cases l with
    | leaf => simp [AVLTree.removeMin, AVLTree.remove, lt_irrefl] at h
    | node ll lk lh lr =>
      simp only [AVLTree.removeMin] at h
      have h1 : (AVLTree.node ll lk lh lr).removeMin.1 = none :=
        congrArg Prod.fst h
      have := ihl (AVLTree.node ll lk lh lr).removeMin.2 (Prod.ext h1 rfl)
      exact absurd this (by simp)

theorem avl_removeMin_some : ∀ (t : AVLTree) (m : Int) (t' : AVLTree),
    t.removeMin = (some m, t') → t.inorder = m :: t'.inorder := by
  intro t
  induction t with
  | leaf => intro m t' h; simp [AVLTree.removeMin] at h
  | node l k hh r ihl ihr =>
    intro m t' h
    cases l with
    | leaf =>
      have he : (AVLTree.node .leaf k hh r).remove k = (some k, r) := by
        simp [AVLTree.remove]
      rw [show (AVLTree.node .leaf k hh r).removeMin
          = (AVLTree.node .leaf k hh r).remove k from rfl, he] at h
      obtain ⟨rfl, rfl⟩ : k = m ∧ r = t' := by simpa using h
      simp [AVLTree.inorder]
    | node ll lk lh lr =>
      simp only [AVLTree.removeMin] at h
      have h1 : (AVLTree.node ll lk lh lr).removeMin.1 = some m :=
        congrArg Prod.fst h
      have h2 : AVLTree.node (AVLTree.node ll lk lh lr).removeMin.2 k hh r
          = t' := congrArg Prod.snd h
      have ih := ihl m (AVLTree.node ll lk lh lr).removeMin.2
        (Prod.ext h1 rfl)
      rw [← h2]
      show (AVLTree.node ll lk lh lr).inorder ++ k :: r.inorder = _
      rw [ih]
      simp [AVLTree.inorder]

theorem avl_removeMax_none : ∀ (t t' : AVLTree),
    t.removeMax = (none, t') → t = .leaf := by
  intro t
  induction t with
  | leaf => intro t' _; rfl
  | node l k hh r ihl ihr =>
    intro t' h
    cases r with
    | leaf =>
      cases l with
      | leaf => simp [AVLTree.removeMax, AVLTree.remove, lt_irrefl] at h
      | node ll lk lh lr =>
        simp [AVLTree.removeMax, AVLTree.remove, lt_irrefl] at h
    | node rl rk rh rr =>
      simp only [AVLTree.removeMax] at h
      have h1 : (AVLTree.node rl rk rh rr).removeMax.1 = none :=
        congrArg Prod.fst h
      have := ihr (AVLTree.node rl rk rh rr).removeMax.2 (Prod.ext h1 rfl)
      exact absurd this (by simp)

theorem avl_removeMax_some : ∀ (t : AVLTree) (m : Int) (t' : AVLTree),
    t.removeMax = (some m, t') → t.inorder = t'.inorder ++ [m] := by
  intro t
  induction t with
  | leaf => intro m t' h; simp [AVLTree.removeMax] at h
  | node l k hh r ihl ihr =>
    intro m t' h
    cases r with
    | leaf =>
      cases l with
      | leaf =>
        have he : (AVLTree.node .leaf k hh .leaf).remove k
            = (some k, .leaf) := by simp [AVLTree.remove]
        rw [show (AVLTree.node .leaf k hh .leaf).removeMax
            = (AVLTree.node .leaf k hh .leaf).remove k from rfl, he] at h
        obtain ⟨rfl, rfl⟩ : k = m ∧ AVLTree.leaf = t' := by simpa using h
        simp [AVLTree.inorder]
      | node ll lk lh lr =>
        have hp := avl_pullMax_inorder (t := AVLTree.node ll lk lh lr)
          (by simp)
        have he : (AVLTree.node (AVLTree.node ll lk lh lr) k hh .leaf).remove k
            = (some k, AVLTree.balance (AVLTree.node
                (AVLTree.node ll lk lh lr).pullMax.2
                (AVLTree.node ll lk lh lr).pullMax.1 hh .leaf)) := by
          simp [AVLTree.remove]
        rw [show (AVLTree.node (AVLTree.node ll lk lh lr) k hh .leaf).removeMax
            = (AVLTree.node (AVLTree.node ll lk lh lr) k hh .leaf).remove k
            from rfl, he] at h
        have hm' : k = m := by simpa using congrArg Prod.fst h
        subst hm'
        injection h with h1 h2
        subst h2
        rw [avl_balance_inorder]
        show (AVLTree.node ll lk lh lr).inorder ++ k :: AVLTree.leaf.inorder
          = ((AVLTree.node ll lk lh lr).pullMax.2.inorder ++
              (AVLTree.node ll lk lh lr).pullMax.1 :: AVLTree.leaf.inorder)
            ++ [k]
        rw [← hp]
        simp [AVLTree.inorder]
    | node rl rk rh rr =>
      simp only [AVLTree.removeMax] at h
      have h1 : (AVLTree.node rl rk rh rr).removeMax.1 = some m :=
        congrArg Prod.fst h
      have h2 : AVLTree.node l k hh (AVLTree.node rl rk rh rr).removeMax.2
          = t' := congrArg Prod.snd h
      have ih := ihr m (AVLTree.node rl rk rh rr).removeMax.2
        (Prod.ext h1 rfl)
      rw [← h2]
      show l.inorder ++ k :: (AVLTree.node rl rk rh rr).inorder = _
      rw [ih]
      show _ = (l.inorder ++ k ::
        (AVLTree.node rl rk rh rr).removeMax.2.inorder) ++ [m]
      simp

theorem bst_drain_spec : ∀ (fuel : Nat) (t : BSTree),
    t.inorder.length ≤ fuel →
    (BSTree.drain fuel t).1 ++ (BSTree.drain fuel t).2.1.reverse
        = t.inorder ∧
      (BSTree.drain fuel t).2.2 = .leaf ∧
      (List.Pairwise (· < ·) t.inorder →
        List.Pairwise (· < ·) (BSTree.drain fuel t).1 ∧
          List.Pairwise (· > ·) (BSTree.drain fuel t).2.1) := by
  intro fuel
  induction fuel with
  | zero =>
    intro t hlen
    have ht : t = .leaf := bst_inorder_nil.mp
      (List.eq_nil_of_length_eq_zero (Nat.le_zero.mp hlen))
    subst ht
    simp [BSTree.drain, BSTree.inorder]
  | succ fuel ih =>
    intro t hlen
    cases hmin : t.removeMin with
    | mk o t₁ =>
      cases o with
      | none =>
        have ht : t = .leaf := bst_removeMin_none hmin
        subst ht
        simp [BSTree.drain, BSTree.removeMin, BSTree.inorder]
      | some m =>
        have hin1 : t.inorder = m :: t₁.inorder := bst_removeMin_some hmin
        cases hmax : t₁.removeMax with
        | mk o2 t₂ =>
          cases o2 with
          | none =>
            have ht1 : t₁ = .leaf := bst_removeMax_none hmax
            subst ht1
            simp only [BSTree.drain, hmin, hmax]
            refine ⟨?_, by trivial, fun _ => ?_⟩
            · simp [hin1, BSTree.inorder]
            · constructor <;> simp
          | some mx =>
            have hin2 : t₁.inorder = t₂.inorder ++ [mx] :=
              bst_removeMax_some hmax
            have hlen2 : t₂.inorder.length ≤ fuel := by
              have q1 : t.inorder.length = t₁.inorder.length + 1 := by
                rw [hin1]; simp
              have q2 : t₁.inorder.length = t₂.inorder.length + 1 := by
                rw [hin2]; simp
              omega
            obtain ⟨e1, e2, hsor⟩ := ih t₂ hlen2
            simp only [BSTree.drain, hmin, hmax]
            refine ⟨?_, by simpa using e2, fun hs => ?_⟩
            · simp only [List.cons_append, List.reverse_cons,
                List.append_assoc] at e1 ⊢
              rw [← List.append_assoc, e1, ← hin2, ← hin1]
            · rw [hin1, List.pairwise_cons] at hs
              obtain ⟨hmlt, hs1⟩ := hs
              rw [hin2, List.pairwise_append] at hs1
              obtain ⟨hs2, -, hall⟩ := hs1
              obtain ⟨hp1, hp2⟩ := hsor hs2
              constructor
              · rw [List.pairwise_cons]
                refine ⟨fun y hy => ?_, hp1⟩
                apply hmlt
                rw [hin2]
                apply List.mem_append_left
                rw [← e1]
                exact List.mem_append_left _ hy
              · rw [List.pairwise_cons]
                refine ⟨fun y hy => ?_, hp2⟩
                have hy' : y ∈ t₂.inorder := by
                  rw [← e1]
                  exact List.mem_append_right _ (by simpa using hy)
                exact hall y hy' mx (by simp)

theorem avl_drain_spec : ∀ (fuel : Nat) (t : AVLTree),
    t.inorder.length ≤ fuel →
    (AVLTree.drain fuel t).1 ++ (AVLTree.drain fuel t).2.1.reverse
        = t.inorder ∧
      (AVLTree.drain fuel t).2.2 = .leaf ∧
      (List.Pairwise (· < ·) t.inorder →
        List.Pairwise (· < ·) (AVLTree.drain fuel t).1 ∧
          List.Pairwise (· > ·) (AVLTree.drain fuel t).2.1) := by
  intro fuel
  induction fuel with
  | zero =>
    intro t hlen
    have ht : t = .leaf := avl_inorder_nil.mp
      (List.eq_nil_of_length_eq_zero (Nat.le_zero.mp hlen))
    subst ht
    simp [AVLTree.drain, AVLTree.inorder]
  | succ fuel ih =>
    intro t hlen
    cases hmin : t.removeMin with
    | mk o t₁ =>
      cases o with
      | none =>
        have ht : t = .leaf := avl_removeMin_none t t₁ hmin
        subst ht
        simp [AVLTree.drain, AVLTree.removeMin, AVLTree.inorder]
      | some m =>
        have hin1 : t.inorder = m :: t₁.inorder :=
          avl_removeMin_some t m t₁ hmin
        cases hmax : t₁.removeMax with
        | mk o2 t₂ =>
          cases o2 with
          | none =>
            have ht1 : t₁ = .leaf := avl_removeMax_none t₁ t₂ hmax
            subst ht1
            simp only [AVLTree.drain, hmin, hmax]
            refine ⟨?_, by trivial, fun _ => ?_⟩
            · simp [hin1, AVLTree.inorder]
            · constructor <;> simp
          | some mx =>
            have hin2 : t₁.inorder = t₂.inorder ++ [mx] :=
              avl_removeMax_some t₁ mx t₂ hmax
            have hlen2 : t₂.inorder.length ≤ fuel := by
              have q1 : t.inorder.length = t₁.inorder.length + 1 := by
                rw [hin1]; simp
              have q2 : t₁.inorder.length = t₂.inorder.length + 1 := by
                rw [hin2]; simp
              omega
            obtain ⟨e1, e2, hsor⟩ := ih t₂ hlen2
            simp only [AVLTree.drain, hmin, hmax]
            refine ⟨?_, by simpa using e2, fun hs => ?_⟩
            · simp only [List.cons_append, List.reverse_cons,
                List.append_assoc] at e1 ⊢
              rw [← List.append_assoc, e1, ← hin2, ← hin1]
            · rw [hin1, List.pairwise_cons] at hs
              obtain ⟨hmlt, hs1⟩ := hs
              rw [hin2, List.pairwise_append] at hs1
              obtain ⟨hs2, -, hall⟩ := hs1
              obtain ⟨hp1, hp2⟩ := hsor hs2
              constructor
              · rw [List.pairwise_cons]
                refine ⟨fun y hy => ?_, hp1⟩
                apply hmlt
                rw [hin2]
                apply List.mem_append_left
                rw [← e1]
                exact List.mem_append_left _ hy
              · rw [List.pairwise_cons]
                refine ⟨fun y hy => ?_, hp2⟩
                have hy' : y ∈ t₂.inorder := by
                  rw [← e1]
                  exact List.mem_append_right _ (by simpa using hy)
                exact hall y hy' mx (by simp)

theorem bst_insertList_spec : ∀ (ks : List Int) (t : BSTree),
    List.Pairwise (· < ·) t.inorder → ks.Nodup →
    (∀ x ∈ ks, x ∉ t.inorder) →
    (List.foldl (fun u k => (u.insert k).2) t ks).inorder.Perm
        (t.inorder ++ ks) ∧
      List.Pairwise (· < ·)
        (List.foldl (fun u k => (u.insert k).2) t ks).inorder := by
  intro ks
  induction ks with
  | nil =>
    intro t hs _ _
    constructor
    · simp
    · simpa using hs
  | cons k ks ih =>
    intro t hs hnd hdisj
    have hknm : k ∉ t.inorder := hdisj k (by simp)
    have hins : (t.insert k).2.inorder = insList k t.inorder :=
      bst_insert_inorder hs
    have hs' : List.Pairwise (· < ·) (t.insert k).2.inorder := by
      rw [hins]; exact pairwise_insList hs
    have hnd' : ks.Nodup := (List.nodup_cons.mp hnd).2
    have hknks : k ∉ ks := (List.nodup_cons.mp hnd).1
    have hdisj' : ∀ x ∈ ks, x ∉ (t.insert k).2.inorder := by
      intro x hx hmem
      rw [hins] at hmem
      rcases mem_insList.mp hmem with rfl | hmem
      · exact hknks hx
      · exact hdisj x (by simp [hx]) hmem
    obtain ⟨hperm, hpw⟩ := ih (t.insert k).2 hs' hnd' hdisj'
    constructor
    · simp only [List.foldl_cons]
      refine hperm.trans ?_
      have h1 : (t.insert k).2.inorder.Perm (k :: t.inorder) := by
        rw [hins]; exact perm_insList hknm
      refine (h1.append_right ks).trans ?_
      exact List.perm_middle.symm
    · simpa only [List.foldl_cons] using hpw

theorem avl_insertList_spec : ∀ (ks : List Int) (t : AVLTree),
    List.Pairwise (· < ·) t.inorder → ks.Nodup →
    (∀ x ∈ ks, x ∉ t.inorder) →
    (List.foldl (fun u k => (u.insert k).2) t ks).inorder.Perm
        (t.inorder ++ ks) ∧
      List.Pairwise (· < ·)
        (List.foldl (fun u k => (u.insert k).2) t ks).inorder := by
  intro ks
  induction ks with
  | nil =>
    intro t hs _ _
    constructor
    · simp
    · simpa using hs
  | cons k ks ih =>
    intro t hs hnd hdisj
    have hknm : k ∉ t.inorder := hdisj k (by simp)
    have hins : (t.insert k).2.inorder = insList k t.inorder :=
      avl_insert_inorder hs
    have hs' : List.Pairwise (· < ·) (t.insert k).2.inorder := by
      rw [hins]; exact pairwise_insList hs
    have hnd' : ks.Nodup := (List.nodup_cons.mp hnd).2
    have hknks : k ∉ ks := (List.nodup_cons.mp hnd).1
    have hdisj' : ∀ x ∈ ks, x ∉ (t.insert k).2.inorder := by
      intro x hx hmem
      rw [hins] at hmem
      rcases mem_insList.mp hmem with rfl | hmem
      · exact hknks hx
      · exact hdisj x (by simp [hx]) hmem
    obtain ⟨hperm, hpw⟩ := ih (t.insert k).2 hs' hnd' hdisj'
    constructor
    · simp only [List.foldl_cons]
      refine hperm.trans ?_
      have h1 : (t.insert k).2.inorder.Perm (k :: t.inorder) := by
        rw [hins]; exact perm_insList hknm
      refine (h1.append_right ks).trans ?_
      exact List.perm_middle.symm
    · simpa only [List.foldl_cons] using hpw

/-- C2: for every sequence of unique keys inserted into a BST or an AVL
tree (starting empty), the in-order traversal yields exactly the inserted
keys (a permutation of them) in strictly ascending order. -/
theorem claim_C2 (ks : List Int) (hnd : ks.Nodup) :
    (List.Pairwise (· < ·)
        (List.foldl (fun u k => (u.insert k).2) BSTree.leaf ks).inorder ∧
      (List.foldl (fun u k => (u.insert k).2) BSTree.leaf ks).inorder.Perm
        ks) ∧
    List.Pairwise (· < ·)
        (List.foldl (fun u k => (u.insert k).2) AVLTree.leaf ks).inorder ∧
      (List.foldl (fun u k => (u.insert k).2) AVLTree.leaf ks).inorder.Perm
        ks := by
  obtain ⟨hb1, hb2⟩ := bst_insertList_spec ks .leaf (by
    simp [BSTree.inorder]) hnd (by simp [BSTree.inorder])
  obtain ⟨ha1, ha2⟩ := avl_insertList_spec ks .leaf (by
    simp [AVLTree.inorder]) hnd (by simp [AVLTree.inorder])
  exact ⟨⟨hb2, by simpa [BSTree.inorder] using hb1⟩,
    ha2, by simpa [AVLTree.inorder] using ha1⟩

theorem claim_C2_witness :
    ([2, 1, 3] : List Int).Nodup ∧
      ((List.Pairwise (· < ·)
          (List.foldl (fun u k => (u.insert k).2) BSTree.leaf
            [2, 1, 3]).inorder ∧
        (List.foldl (fun u k => (u.insert k).2) BSTree.leaf
            [2, 1, 3]).inorder.Perm [2, 1, 3]) ∧
      List.Pairwise (· < ·)
          (List.foldl (fun u k => (u.insert k).2) AVLTree.leaf
            [2, 1, 3]).inorder ∧
        (List.foldl (fun u k => (u.insert k).2) AVLTree.leaf
            [2, 1, 3]).inorder.Perm [2, 1, 3]) :=
  ⟨by decide, claim_C2 [2, 1, 3] (by decide)⟩

/-- C4: inserting an already-present key returns `false` and leaves the
tree bitwise unchanged — hence identical in-order output, and in the AVL
variant no rebalancing happens on the descent path — for both trees. -/
theorem claim_C4 (t : BSTree) (ta : AVLTree) (key : Int)
    (hs : List.Pairwise (· < ·) t.inorder)
    (hsa : List.Pairwise (· < ·) ta.inorder)
    (hmem : key ∈ t.inorder) (hmema : key ∈ ta.inorder) :
    t.insert key = (false, t) ∧ (t.insert key).2.inorder = t.inorder ∧
      ta.insert key = (false, ta) ∧
      (ta.insert key).2.inorder = ta.inorder := by
  have h1 := bst_insert_mem hs hmem
  have h2 := avl_insert_mem hsa hmema
  exact ⟨h1, by rw [h1], h2, by rw [h2]⟩

theorem claim_C4_witness :
    List.Pairwise (· < ·)
        (BSTree.node (BSTree.node .leaf 1 .leaf) 2
          (BSTree.node .leaf 3 .leaf)).inorder ∧
      List.Pairwise (· < ·)
        (AVLTree.node (AVLTree.node .leaf 1 1 .leaf) 2 2
          (AVLTree.node .leaf 3 1 .leaf)).inorder ∧
      (1 : Int) ∈ (BSTree.node (BSTree.node .leaf 1 .leaf) 2
          (BSTree.node .leaf 3 .leaf)).inorder ∧
      (1 : Int) ∈ (AVLTree.node (AVLTree.node .leaf 1 1 .leaf) 2 2
          (AVLTree.node .leaf 3 1 .leaf)).inorder ∧
      ((BSTree.node (BSTree.node .leaf 1 .leaf) 2
          (BSTree.node .leaf 3 .leaf)).insert 1
        = (false, BSTree.node (BSTree.node .leaf 1 .leaf) 2
            (BSTree.node .leaf 3 .leaf)) ∧
      ((BSTree.node (BSTree.node .leaf 1 .leaf) 2
          (BSTree.node .leaf 3 .leaf)).insert 1).2.inorder
        = (BSTree.node (BSTree.node .leaf 1 .leaf) 2
            (BSTree.node .leaf 3 .leaf)).inorder ∧
      (AVLTree.node (AVLTree.node .leaf 1 1 .leaf) 2 2
          (AVLTree.node .leaf 3 1 .leaf)).insert 1
        = (false, AVLTree.node (AVLTree.node .leaf 1 1 .leaf) 2 2
            (AVLTree.node .leaf 3 1 .leaf)) ∧
      ((AVLTree.node (AVLTree.node .leaf 1 1 .leaf) 2 2
          (AVLTree.node .leaf 3 1 .leaf)).insert 1).2.inorder
        = (AVLTree.node (AVLTree.node .leaf 1 1 .leaf) 2 2
            (AVLTree.node .leaf 3 1 .leaf)).inorder) :=
  ⟨by decide, by decide, by decide, by decide,
    claim_C4 _ _ 1 (by decide) (by decide) (by decide) (by decide)⟩

/-- C5: removing an absent key returns the absent optional and leaves the
tree unchanged (both BST removal modes and the AVL removal), and
`removeMax`/`removeMin` on an empty tree return the absent optional and
leave the tree empty. -/
theorem claim_C5 (t : BSTree) (ta : AVLTree) (key : Int)
    (hnm : key ∉ t.inorder) (hnma : key ∉ ta.inorder) :
    t.removeByCopy key = (none, t) ∧ t.removeByFusion key = (none, t) ∧
      ta.remove key = (none, ta) ∧
      BSTree.removeMax .leaf = (none, .leaf) ∧
      BSTree.removeMin .leaf = (none, .leaf) ∧
      AVLTree.removeMax .leaf = (none, .leaf) ∧
      AVLTree.removeMin .leaf = (none, .leaf) :=
  ⟨bst_removeByCopy_not_mem hnm, bst_removeByFusion_not_mem hnm,
    avl_remove_not_mem hnma, rfl, rfl, rfl, rfl⟩

theorem claim_C5_witness :
    (4 : Int) ∉ (BSTree.node .leaf 2 .leaf).inorder ∧
      (4 : Int) ∉ (AVLTree.node .leaf 2 1 .leaf).inorder ∧
      ((BSTree.node .leaf 2 .leaf).removeByCopy 4
          = (none, BSTree.node .leaf 2 .leaf) ∧
        (BSTree.node .leaf 2 .leaf).removeByFusion 4
          = (none, BSTree.node .leaf 2 .leaf) ∧
        (AVLTree.node .leaf 2 1 .leaf).remove 4
          = (none, AVLTree.node .leaf 2 1 .leaf) ∧
        BSTree.removeMax .leaf = (none, .leaf) ∧
        BSTree.removeMin .leaf = (none, .leaf) ∧
        AVLTree.removeMax .leaf = (none, .leaf) ∧
        AVLTree.removeMin .leaf = (none, .leaf)) :=
  ⟨by decide, by decide, claim_C5 _ _ 4 (by decide) (by decide)⟩

/-- C6: for a key not present, inserting it and then immediately removing
it returns that key, and the resulting tree has the same in-order key
sequence as before the insertion — for the BST (copy removal, the
`remove(key)` default) and for the AVL tree. -/
theorem claim_C6 (t : BSTree) (ta : AVLTree) (key : Int)
    (hs : List.Pairwise (· < ·) t.inorder)
    (hsa : List.Pairwise (· < ·) ta.inorder)
    (hnm : key ∉ t.inorder) (hnma : key ∉ ta.inorder) :
    ((t.insert key).2.removeByCopy key).1 = some key ∧
      ((t.insert key).2.removeByCopy key).2.inorder = t.inorder ∧
      ((ta.insert key).2.remove key).1 = some key ∧
      ((ta.insert key).2.remove key).2.inorder = ta.inorder := by
  have hins := @bst_insert_inorder t key hs
  have hs1 : List.Pairwise (· < ·) (t.insert key).2.inorder := by
    rw [hins]; exact pairwise_insList hs
  have hmem1 : key ∈ (t.insert key).2.inorder := by
    rw [hins]; exact mem_insList.mpr (Or.inl rfl)
  obtain ⟨h1, h2⟩ :=
    @bst_removeByCopy_inorder (t.insert key).2 key hs1
  have hinsa := @avl_insert_inorder ta key hsa
  have hsa1 : List.Pairwise (· < ·) (ta.insert key).2.inorder := by
    rw [hinsa]; exact pairwise_insList hsa
  have hmema1 : key ∈ (ta.insert key).2.inorder := by
    rw [hinsa]; exact mem_insList.mpr (Or.inl rfl)
  obtain ⟨ha1, ha2⟩ :=
    @avl_remove_inorder (ta.insert key).2 key hsa1
  refine ⟨by rw [h2, if_pos hmem1], ?_, by rw [ha2, if_pos hmema1], ?_⟩
  · rw [h1, hins, erase_insList hnm]
  · rw [ha1, hinsa, erase_insList hnma]

theorem claim_C6_witness :
    List.Pairwise (· < ·) (BSTree.node .leaf 2 .leaf).inorder ∧
      List.Pairwise (· < ·) (AVLTree.node .leaf 2 1 .leaf).inorder ∧
      (1 : Int) ∉ (BSTree.node .leaf 2 .leaf).inorder ∧
      (1 : Int) ∉ (AVLTree.node .leaf 2 1 .leaf).inorder ∧
      ((((BSTree.node .leaf 2 .leaf).insert 1).2.removeByCopy 1).1
          = some 1 ∧
        (((BSTree.node .leaf 2 .leaf).insert 1).2.removeByCopy 1).2.inorder
          = (BSTree.node .leaf 2 .leaf).inorder ∧
        (((AVLTree.node .leaf 2 1 .leaf).insert 1).2.remove 1).1
          = some 1 ∧
        (((AVLTree.node .leaf 2 1 .leaf).insert 1).2.remove 1).2.inorder
          = (AVLTree.node .leaf 2 1 .leaf).inorder) :=
  ⟨by decide, by decide, by decide, by decide,
    claim_C6 _ _ 1 (by decide) (by decide) (by decide) (by decide)⟩

/-- C7: alternately calling `removeMin` then `removeMax` until the tree is
empty extracts every stored key exactly once (the `removeMin` results
followed by the reversed `removeMax` results are exactly the in-order
sequence), `removeMin` results ascend, `removeMax` results descend, and
after the drain the tree is empty with `isEmpty` true and
`getMax`/`getMin` absent — for both trees. -/
theorem claim_C7 (t : BSTree) (ta : AVLTree)
    (hs : List.Pairwise (· < ·) t.inorder)
    (hsa : List.Pairwise (· < ·) ta.inorder) :
    ((BSTree.drain t.inorder.length t).1 ++
        (BSTree.drain t.inorder.length t).2.1.reverse = t.inorder ∧
      List.Pairwise (· < ·) (BSTree.drain t.inorder.length t).1 ∧
      List.Pairwise (· > ·) (BSTree.drain t.inorder.length t).2.1 ∧
      (BSTree.drain t.inorder.length t).2.2 = .leaf ∧
      ((BSTree.drain t.inorder.length t).2.2).isEmpty = true ∧
      ((BSTree.drain t.inorder.length t).2.2).getMax = none ∧
      ((BSTree.drain t.inorder.length t).2.2).getMin = none) ∧
    ((AVLTree.drain ta.inorder.length ta).1 ++
        (AVLTree.drain ta.inorder.length ta).2.1.reverse = ta.inorder ∧
      List.Pairwise (· < ·) (AVLTree.drain ta.inorder.length ta).1 ∧
      List.Pairwise (· > ·) (AVLTree.drain ta.inorder.length ta).2.1 ∧
      (AVLTree.drain ta.inorder.length ta).2.2 = .leaf ∧
      ((AVLTree.drain ta.inorder.length ta).2.2).isEmpty = true ∧
      ((AVLTree.drain ta.inorder.length ta).2.2).getMax = none ∧
      ((AVLTree.drain ta.inorder.length ta).2.2).getMin = none) := by
  obtain ⟨e1, e2, hsor⟩ := bst_drain_spec t.inorder.length t le_rfl
  obtain ⟨p1, p2⟩ := hsor hs
  obtain ⟨f1, f2, fsor⟩ := avl_drain_spec ta.inorder.length ta le_rfl
  obtain ⟨q1, q2⟩ := fsor hsa
  refine ⟨⟨e1, p1, p2, e2, ?_, ?_, ?_⟩, f1, q1, q2, f2, ?_, ?_, ?_⟩ <;>
    first
      | (rw [e2]; rfl)
      | (rw [f2]; rfl)

theorem claim_C7_witness :
    List.Pairwise (· < ·)
        (BSTree.node (BSTree.node .leaf 1 .leaf) 2
          (BSTree.node .leaf 3 .leaf)).inorder ∧
      List.Pairwise (· < ·)
        (AVLTree.node (AVLTree.node .leaf 1 1 .leaf) 2 2
          (AVLTree.node .leaf 3 1 .leaf)).inorder ∧
      (((BSTree.drain (BSTree.node (BSTree.node .leaf 1 .leaf) 2
            (BSTree.node .leaf 3 .leaf)).inorder.length
            (BSTree.node (BSTree.node .leaf 1 .leaf) 2
              (BSTree.node .leaf 3 .leaf))).1 ++
          (BSTree.drain (BSTree.node (BSTree.node .leaf 1 .leaf) 2
            (BSTree.node .leaf 3 .leaf)).inorder.length
            (BSTree.node (BSTree.node .leaf 1 .leaf) 2
              (BSTree.node .leaf 3 .leaf))).2.1.reverse
          = (BSTree.node (BSTree.node .leaf 1 .leaf) 2
              (BSTree.node .leaf 3 .leaf)).inorder ∧
        List.Pairwise (· < ·)
          (BSTree.drain (BSTree.node (BSTree.node .leaf 1 .leaf) 2
            (BSTree.node .leaf 3 .leaf)).inorder.length
            (BSTree.node (BSTree.node .leaf 1 .leaf) 2
              (BSTree.node .leaf 3 .leaf))).1 ∧
        List.Pairwise (· > ·)
          (BSTree.drain (BSTree.node (BSTree.node .leaf 1 .leaf) 2
            (BSTree.node .leaf 3 .leaf)).inorder.length
            (BSTree.node (BSTree.node .leaf 1 .leaf) 2
              (BSTree.node .leaf 3 .leaf))).2.1 ∧
        (BSTree.drain (BSTree.node (BSTree.node .leaf 1 .leaf) 2
            (BSTree.node .leaf 3 .leaf)).inorder.length
            (BSTree.node (BSTree.node .leaf 1 .leaf) 2
              (BSTree.node .leaf 3 .leaf))).2.2 = .leaf ∧
        ((BSTree.drain (BSTree.node (BSTree.node .leaf 1 .leaf) 2
            (BSTree.node .leaf 3 .leaf)).inorder.length
            (BSTree.node (BSTree.node .leaf 1 .leaf) 2
              (BSTree.node .leaf 3 .leaf))).2.2).isEmpty = true ∧
        ((BSTree.drain (BSTree.node (BSTree.node .leaf 1 .leaf) 2
            (BSTree.node .leaf 3 .leaf)).inorder.length
            (BSTree.node (BSTree.node .leaf 1 .leaf) 2
              (BSTree.node .leaf 3 .leaf))).2.2).getMax = none ∧
        ((BSTree.drain (BSTree.node (BSTree.node .leaf 1 .leaf) 2
            (BSTree.node .leaf 3 .leaf)).inorder.length
            (BSTree.node (BSTree.node .leaf 1 .leaf) 2
              (BSTree.node .leaf 3 .leaf))).2.2).getMin = none) ∧
      ((AVLTree.drain (AVLTree.node (AVLTree.node .leaf 1 1 .leaf) 2 2
            (AVLTree.node .leaf 3 1 .leaf)).inorder.length
            (AVLTree.node (AVLTree.node .leaf 1 1 .leaf) 2 2
              (AVLTree.node .leaf 3 1 .leaf))).1 ++
          (AVLTree.drain (AVLTree.node (AVLTree.node .leaf 1 1 .leaf) 2 2
            (AVLTree.node .leaf 3 1 .leaf)).inorder.length
            (AVLTree.node (AVLTree.node .leaf 1 1 .leaf) 2 2
              (AVLTree.node .leaf 3 1 .leaf))).2.1.reverse
          = (AVLTree.node (AVLTree.node .leaf 1 1 .leaf) 2 2
              (AVLTree.node .leaf 3 1 .leaf)).inorder ∧
        List.Pairwise (· < ·)
          (AVLTree.drain (AVLTree.node (AVLTree.node .leaf 1 1 .leaf) 2 2
            (AVLTree.node .leaf 3 1 .leaf)).inorder.length
            (AVLTree.node (AVLTree.node .leaf 1 1 .leaf) 2 2
              (AVLTree.node .leaf 3 1 .leaf))).1 ∧
        List.Pairwise (· > ·)
          (AVLTree.drain (AVLTree.node (AVLTree.node .leaf 1 1 .leaf) 2 2
            (AVLTree.node .leaf 3 1 .leaf)).inorder.length
            (AVLTree.node (AVLTree.node .leaf 1 1 .leaf) 2 2
              (AVLTree.node .leaf 3 1 .leaf))).2.1 ∧
        (AVLTree.drain (AVLTree.node (AVLTree.node .leaf 1 1 .leaf) 2 2
            (AVLTree.node .leaf 3 1 .leaf)).inorder.length
            (AVLTree.node (AVLTree.node .leaf 1 1 .leaf) 2 2
              (AVLTree.node .leaf 3 1 .leaf))).2.2 = .leaf ∧
        ((AVLTree.drain (AVLTree.node (AVLTree.node .leaf 1 1 .leaf) 2 2
            (AVLTree.node .leaf 3 1 .leaf)).inorder.length
            (AVLTree.node (AVLTree.node .leaf 1 1 .leaf) 2 2
              (AVLTree.node .leaf 3 1 .leaf))).2.2).isEmpty = true ∧
        ((AVLTree.drain (AVLTree.node (AVLTree.node .leaf 1 1 .leaf) 2 2
            (AVLTree.node .leaf 3 1 .leaf)).inorder.length
            (AVLTree.node (AVLTree.node .leaf 1 1 .leaf) 2 2
              (AVLTree.node .leaf 3 1 .leaf))).2.2).getMax = none ∧
        ((AVLTree.drain (AVLTree.node (AVLTree.node .leaf 1 1 .leaf) 2 2
            (AVLTree.node .leaf 3 1 .leaf)).inorder.length
            (AVLTree.node (AVLTree.node .leaf 1 1 .leaf) 2 2
              (AVLTree.node .leaf 3 1 .leaf))).2.2).getMin = none)) :=
  ⟨by decide, by decide,
    claim_C7 (BSTree.node (BSTree.node .leaf 1 .leaf) 2
        (BSTree.node .leaf 3 .leaf))
      (AVLTree.node (AVLTree.node .leaf 1 1 .leaf) 2 2
        (AVLTree.node .leaf 3 1 .leaf))
      (by decide) (by decide)⟩

/-- C8: when the target key's node has two children, `removeByFusion` and
`removeByCopy` return trees with identical in-order key sequences and the
same extracted key (the node shapes may differ). -/
theorem claim_C8 (t : BSTree) (key : Int)
    (hs : List.Pairwise (· < ·) t.inorder)
    (_hL : (t.subtreeOf key).leftSub ≠ .leaf)
    (_hR : (t.subtreeOf key).rightSub ≠ .leaf) :
    (t.removeByFusion key).2.inorder = (t.removeByCopy key).2.inorder ∧
      (t.removeByFusion key).1 = (t.removeByCopy key).1 := by
  obtain ⟨f1, f2⟩ := @bst_removeByFusion_inorder t key hs
  obtain ⟨c1, c2⟩ := @bst_removeByCopy_inorder t key hs
  exact ⟨by rw [f1, c1], by rw [f2, c2]⟩

theorem claim_C8_witness :
    List.Pairwise (· < ·) bstC3.inorder ∧
      (bstC3.subtreeOf 10).leftSub ≠ .leaf ∧
      (bstC3.subtreeOf 10).rightSub ≠ .leaf ∧
      ((bstC3.removeByFusion 10).2.inorder
          = (bstC3.removeByCopy 10).2.inorder ∧
        (bstC3.removeByFusion 10).1 = (bstC3.removeByCopy 10).1) :=
  ⟨by decide, by decide, by decide,
    claim_C8 bstC3 10 (by decide) (by decide) (by decide)⟩

theorem bst_findMaxKey_mem {t : BSTree} (h : t ≠ .leaf) :
    t.findMaxKey ∈ t.inorder := by
  induction t with
  | leaf => exact absurd rfl h
  | node l k r ihl ihr =>
    cases r with
    | leaf => simp [BSTree.findMaxKey, bst_mem_node]
    | node rl rk rr =>
      have hm := ihr (by simp)
      simp only [BSTree.findMaxKey]
      exact bst_mem_node.mpr (Or.inr (Or.inr hm))

theorem bst_lt_findMaxKey {t : BSTree} {x : Int}
    (hs : List.Pairwise (· < ·) t.inorder) (hx : x ∈ t.inorder)
    (hne : x ≠ t.findMaxKey) : x < t.findMaxKey := by
  induction t with
  | leaf => simp [BSTree.inorder] at hx
  | node l k r ihl ihr =>
    rw [bst_pairwise_node] at hs
    obtain ⟨hl, hr, hlk, hkr⟩ := hs
    cases r with
    | leaf =>
      simp only [BSTree.findMaxKey] at hne ⊢
      rcases bst_mem_node.mp hx with hm | rfl | hm
      · exact hlk x hm
      · exact absurd rfl hne
      · simp [BSTree.inorder] at hm
    | node rl rk rr =>
      simp only [BSTree.findMaxKey] at hne ⊢
      have hkm : k < (BSTree.node rl rk rr).findMaxKey :=
        hkr _ (bst_findMaxKey_mem (by simp))
      rcases bst_mem_node.mp hx with hm | rfl | hm
      · exact lt_trans (hlk x hm) hkm
      · exact hkm
      · exact ihr hr hm hne

theorem bst_depth_attachMax {L : BSTree} {x : Int} : ∀ (R : BSTree),
    List.Pairwise (· < ·) L.inorder → x ∈ L.inorder →
    x ≠ L.findMaxKey → (L.attachMax R).depthOf x = L.depthOf x := by
  induction L with
  | leaf => intro R _ hx _; simp [BSTree.inorder] at hx
  | node a b c iha ihc =>
    intro R hs hx hne
    rw [bst_pairwise_node] at hs
    obtain ⟨ha, hc, hab, hbc⟩ := hs
    cases c with
    | leaf =>
      have hxa : x ∈ a.inorder := by
        rcases bst_mem_node.mp hx with hm | rfl | hm
        · exact hm
        · exfalso
          apply hne
          simp [BSTree.findMaxKey]
        · simp [BSTree.inorder] at hm
      have hxb : x < b := hab x hxa
      simp [BSTree.attachMax, BSTree.depthOf, hxb]
    | node cl ck cr =>
      simp only [BSTree.attachMax]
      rcases lt_trichotomy x b with h | h | h
      · simp [BSTree.depthOf, h]
      · subst h
        simp [BSTree.depthOf, lt_irrefl]
      · have hxc : x ∈ (BSTree.node cl ck cr).inorder := by
          rcases bst_mem_node.mp hx with hm | rfl | hm
          · exact absurd (hab x hm) (not_lt.mpr h.le)
          · exact absurd h (lt_irrefl _)
          · exact hm
        have ih := ihc R hc hxc (by simpa [BSTree.findMaxKey] using hne)
        simp [BSTree.depthOf, h, not_lt.mpr h.le, ih]

theorem bst_depth_detachMax {L : BSTree} {x : Int}
    (hs : List.Pairwise (· < ·) L.inorder) (hx : x ∈ L.inorder)
    (hne : x ≠ L.findMaxKey) :
    L.depthOf x ≤ (L.detachMax).2.depthOf x + 1 := by
  induction L with
  | leaf => simp [BSTree.inorder] at hx
  | node a b c iha ihc =>
    rw [bst_pairwise_node] at hs
    obtain ⟨ha, hc, hab, hbc⟩ := hs
    cases c with
    | leaf =>
      have hxa : x ∈ a.inorder := by
        rcases bst_mem_node.mp hx with hm | rfl | hm
        · exact hm
        · exfalso
          apply hne
          simp [BSTree.findMaxKey]
        · simp [BSTree.inorder] at hm
      have hxb : x < b := hab x hxa
      simp [BSTree.detachMax, BSTree.depthOf, hxb]
    | node cl ck cr =>
      simp only [BSTree.detachMax]
      rcases lt_trichotomy x b with h | h | h
      · simp [BSTree.depthOf, h]
      · subst h
        simp [BSTree.depthOf, lt_irrefl]
      · have hxc : x ∈ (BSTree.node cl ck cr).inorder := by
          rcases bst_mem_node.mp hx with hm | rfl | hm
          · exact absurd (hab x hm) (not_lt.mpr h.le)
          · exact absurd h (lt_irrefl _)
          · exact hm
        have ih := ihc hc hxc (by simpa [BSTree.findMaxKey] using hne)
        simp only [BSTree.depthOf, if_neg (not_lt.mpr h.le), if_pos h]
          at ih ⊢
        omega

theorem bst_depth_local {L R : BSTree} {κ x : Int}
    (hs : List.Pairwise (· < ·) ((BSTree.node L κ R).inorder))
    (hL : L ≠ .leaf) (hx : x ∈ L.inorder) (hne : x ≠ L.findMaxKey) :
    ((BSTree.node L κ R).removeByFusion κ).2.depthOf x ≤
      ((BSTree.node L κ R).removeByCopy κ).2.depthOf x := by
  rw [bst_pairwise_node] at hs
  obtain ⟨hl, hr, hlk, hkr⟩ := hs
  cases L with
  | leaf => exact absurd rfl hL
  | node a b c =>
    have h1 : ¬ κ > κ := lt_irrefl κ
    simp only [BSTree.removeByFusion, BSTree.removeByCopy, gt_iff_lt,
      if_neg h1]
    rw [bst_depth_attachMax R hl hx hne]
    have hxlt : x < (BSTree.node a b c).findMaxKey :=
      bst_lt_findMaxKey hl hx hne
    have hre : (BSTree.node (BSTree.node a b c).detachMax.2
        ((BSTree.node a b c).detachMax.1) R).depthOf x
        = (BSTree.node a b c).detachMax.2.depthOf x + 1 := by
      rw [bst_detachMax_key]
      simp [BSTree.depthOf, hxlt]
    rw [hre]
    exact bst_depth_detachMax hl hx hne

theorem bst_subtree_left_keys {t : BSTree} {key x : Int}
    (hx : x ∈ (t.subtreeOf key).leftSub.inorder) : x ∈ t.inorder := by
  induction t with
  | leaf => simp [BSTree.subtreeOf, BSTree.leftSub, BSTree.inorder] at hx
  | node l k r ihl ihr =>
    rcases lt_trichotomy key k with h | h | h
    · rw [BSTree.subtreeOf, if_pos (show k > key from h)] at hx
      exact bst_mem_node.mpr (Or.inl (ihl hx))
    · subst h
      rw [BSTree.subtreeOf, if_neg (lt_irrefl key),
        if_neg (lt_irrefl key), BSTree.leftSub] at hx
      exact bst_mem_node.mpr (Or.inl hx)
    · rw [BSTree.subtreeOf, if_neg (show ¬ k > key from not_lt.mpr h.le),
        if_pos h] at hx
      exact bst_mem_node.mpr (Or.inr (Or.inr (ihr hx)))

/-- C3 counterexample: on the BST with root `10`, left subtree `5(1,7)`
and right child `20`, removing key `10` (a node with two children) by
fusion strictly increases the depth of key `20` (in the right subtree of
the removed node) from 1 to 2, and of key `7` (in the left subtree) from
0 to 1, compared with removal by copy — refuting the claim that fusion
never increases the structural depth of either subtree. -/
theorem claim_C3_counterexample :
    (bstC3.subtreeOf 10).leftSub ≠ .leaf ∧
      (bstC3.subtreeOf 10).rightSub ≠ .leaf ∧
      (20 : Int) ∈ (bstC3.subtreeOf 10).rightSub.inorder ∧
      (7 : Int) ∈ (bstC3.subtreeOf 10).leftSub.inorder ∧
      (bstC3.removeByFusion 10).2.depthOf 20 = 2 ∧
      (bstC3.removeByCopy 10).2.depthOf 20 = 1 ∧
      ¬ (bstC3.removeByFusion 10).2.depthOf 20 ≤
          (bstC3.removeByCopy 10).2.depthOf 20 ∧
      (bstC3.removeByFusion 10).2.depthOf 7 = 1 ∧
      (bstC3.removeByCopy 10).2.depthOf 7 = 0 ∧
      ¬ (bstC3.removeByFusion 10).2.depthOf 7 ≤
          (bstC3.removeByCopy 10).2.depthOf 7 := by
  decide

/-- C3 (amended): on a BST whose target key's node has two children,
removal by fusion never increases the depth of a key of the removed
node's left subtree other than that subtree's maximum, compared with
removal by copy. (Keys of the right subtree, and the left subtree's
maximum itself, can end up deeper under fusion — see the
counterexample.) -/
theorem claim_C3 (t : BSTree) (key x : Int)
    (hs : List.Pairwise (· < ·) t.inorder)
    (hL : (t.subtreeOf key).leftSub ≠ .leaf)
    (_hR : (t.subtreeOf key).rightSub ≠ .leaf)
    (hx : x ∈ (t.subtreeOf key).leftSub.inorder)
    (hne : x ≠ (t.subtreeOf key).leftSub.findMaxKey) :
    (t.removeByFusion key).2.depthOf x ≤
      (t.removeByCopy key).2.depthOf x := by
  induction t with
  | leaf => simp [BSTree.subtreeOf, BSTree.leftSub] at hL
  | node l k r ihl ihr =>
    rcases lt_trichotomy key k with h | h | h
    · rw [BSTree.subtreeOf, if_pos (show k > key from h)] at hL _hR hx hne
      have hxl : x ∈ l.inorder := bst_subtree_left_keys hx
      rw [bst_pairwise_node] at hs
      obtain ⟨hl, hr, hlk, hkr⟩ := hs
      have hxk : x < k := hlk x hxl
      simp only [BSTree.removeByFusion, BSTree.removeByCopy, gt_iff_lt,
        if_pos h]
      simp only [BSTree.depthOf, if_pos hxk]
      exact Nat.add_le_add_right (ihl hl hL _hR hx hne) 1
    · subst h
      rw [BSTree.subtreeOf, if_neg (lt_irrefl key), if_neg (lt_irrefl key),
        BSTree.leftSub] at hL hx hne
      exact bst_depth_local hs hL hx hne
    · rw [BSTree.subtreeOf, if_neg (show ¬ k > key from not_lt.mpr h.le),
        if_pos h] at hL _hR hx hne
      have hxr : x ∈ r.inorder := bst_subtree_left_keys hx
      rw [bst_pairwise_node] at hs
      obtain ⟨hl, hr, hlk, hkr⟩ := hs
      have hxk : k < x := hkr x hxr
      simp only [BSTree.removeByFusion, BSTree.removeByCopy, gt_iff_lt,
        if_neg (not_lt.mpr h.le), if_pos h]
      simp only [BSTree.depthOf, if_neg (not_lt.mpr hxk.le), if_pos hxk]
      exact Nat.add_le_add_right (ihr hr hL _hR hx hne) 1

theorem claim_C3_witness :
    List.Pairwise (· < ·) bstC3.inorder ∧
      (bstC3.subtreeOf 10).leftSub ≠ .leaf ∧
      (bstC3.subtreeOf 10).rightSub ≠ .leaf ∧
      (5 : Int) ∈ (bstC3.subtreeOf 10).leftSub.inorder ∧
      (5 : Int) ≠ (bstC3.subtreeOf 10).leftSub.findMaxKey ∧
      (bstC3.removeByFusion 10).2.depthOf 5 ≤
        (bstC3.removeByCopy 10).2.depthOf 5 :=
  ⟨by decide, by decide, by decide, by decide, by decide,
    claim_C3 bstC3 10 5 (by decide) (by decide) (by decide) (by decide)
      (by decide)⟩

theorem avl_realHeight_nonneg : ∀ t : AVLTree, 0 ≤ t.realHeight := by
  intro t
  induction t with
  | leaf => simp [AVLTree.realHeight]
  | node l k h r ihl ihr =>
    simp only [AVLTree.realHeight]
    have h1 := le_max_left l.realHeight r.realHeight
    omega

theorem avl_hc_eq_realHeight {t : AVLTree} (h : t.heightsOk = true) :
    t.hc = t.realHeight := by
  cases t with
  | leaf => rfl
  | node l k hh r =>
    simp only [AVLTree.heightsOk, Bool.and_eq_true, decide_eq_true_eq] at h
    exact h.2

/-- C1 (failing input of the AVL invariant claim): inserting 1, 2, 3, 4
into an empty AVL tree establishes the invariant, but the subsequent
`removeMax` — which applies `remove` in place at the rightmost slot
returned by `findMax` and never revisits the ancestors on the right
spine — leaves node `3` with cached height 2 although it has no children
(recomputed height 1), and the root with cached height 3 (recomputed 2):
the cached-height half of the invariant is violated after a mutating
operation, contradicting the claim. -/
theorem claim_C1_code_bug :
    avlFour.avlInv = true ∧
      (avlFour.removeMax).1 = some 4 ∧
      (avlFour.removeMax).2
        = AVLTree.node (AVLTree.node .leaf 1 1 .leaf) 2 3
            (AVLTree.node .leaf 3 2 .leaf) ∧
      ((avlFour.removeMax).2).heightsOk = false ∧
      ((avlFour.removeMax).2).avlInv = false := by decide

/-- C10: in `AVLTree::balance`, every child dereference of the triggered
rotations is non-null: if the node's children satisfy the cached-height
invariant and its balance factor is `+2` then the left child exists; if
moreover the left child is right-heavy (the LR pre-check fires) then the
left child's right child exists, and the pre-rotated left child is still
non-null for the outer right rotation; symmetrically for `-2`. Hence the
identity (null-dereference) fallback branch of `rotateLeft`/`rotateRight`
is unreachable from `balance` under the invariant. -/
theorem claim_C10 (l r : AVLTree)
    (hl : l.heightsOk = true) (hr : r.heightsOk = true) :
    (l.hc - r.hc = 2 →
      l ≠ .leaf ∧
        (l.bFactor < 0 →
          ∃ a ak ah b, l = AVLTree.node a ak ah b ∧ b ≠ .leaf) ∧
        (if l.bFactor < 0 then l.rotateLeft else l) ≠ .leaf) ∧
    (l.hc - r.hc = -2 →
      r ≠ .leaf ∧
        (r.bFactor > 0 →
          ∃ a ak ah b, r = AVLTree.node a ak ah b ∧ a ≠ .leaf) ∧
        (if r.bFactor > 0 then r.rotateRight else r) ≠ .leaf) := by
  constructor
  · intro hbf
    have hcl := avl_hc_eq_realHeight hl
    have hcr := avl_hc_eq_realHeight hr
    have hrpos := avl_realHeight_nonneg r
    have hlpos : 0 < l.hc := by omega
    cases l with
    | leaf => simp [AVLTree.hc] at hlpos
    | node a ak ah b =>
      simp only [AVLTree.heightsOk, Bool.and_eq_true,
        decide_eq_true_eq] at hl
      have hca := avl_hc_eq_realHeight hl.1.1
      have hcb := avl_hc_eq_realHeight hl.1.2
      have hapos := avl_realHeight_nonneg a
      have hbposn := avl_realHeight_nonneg b
      refine ⟨by simp, ?_, ?_⟩
      · intro hbfl
        simp only [AVLTree.bFactor] at hbfl
        have hbpos : 0 < b.hc := by omega
        refine ⟨a, ak, ah, b, rfl, ?_⟩
        intro he
        subst he
        simp [AVLTree.hc] at hbpos
      · by_cases hbfl : (AVLTree.node a ak ah b).bFactor < 0
        · rw [if_pos hbfl]
          simp only [AVLTree.bFactor] at hbfl
          have hbpos : 0 < b.hc := by omega
          cases b with
          | leaf => simp [AVLTree.hc] at hbpos
          | node b1 b2 b3 b4 => simp [AVLTree.rotateLeft]
        · rw [if_neg hbfl]
          simp
  · intro hbf
    have hcl := avl_hc_eq_realHeight hl
    have hcr := avl_hc_eq_realHeight hr
    have hlpos' := avl_realHeight_nonneg l
    have hrpos : 0 < r.hc := by omega
    cases r with
    | leaf => simp [AVLTree.hc] at hrpos
    | node a ak ah b =>
      simp only [AVLTree.heightsOk, Bool.and_eq_true,
        decide_eq_true_eq] at hr
      have hca := avl_hc_eq_realHeight hr.1.1
      have hcb := avl_hc_eq_realHeight hr.1.2
      have hbposn := avl_realHeight_nonneg b
      refine ⟨by simp, ?_, ?_⟩
      · intro hbfr
        simp only [AVLTree.bFactor] at hbfr
        have hapos : 0 < a.hc := by omega
        refine ⟨a, ak, ah, b, rfl, ?_⟩
        intro he
        subst he
        simp [AVLTree.hc] at hapos
      · by_cases hbfr : (AVLTree.node a ak ah b).bFactor > 0
        · rw [if_pos hbfr]
          simp only [AVLTree.bFactor] at hbfr
          have hapos : 0 < a.hc := by omega
          cases a with
          | leaf => simp [AVLTree.hc] at hapos
          | node a1 a2 a3 a4 => simp [AVLTree.rotateRight]
        · rw [if_neg hbfr]
          simp

theorem claim_C10_witness :
    ((AVLTree.node (AVLTree.node .leaf 1 1 .leaf) 2 2
        (AVLTree.node .leaf 3 1 .leaf)).heightsOk = true ∧
      AVLTree.leaf.heightsOk = true) ∧
      (((AVLTree.node (AVLTree.node .leaf 1 1 .leaf) 2 2
          (AVLTree.node .leaf 3 1 .leaf)).hc - AVLTree.leaf.hc = 2 →
        (AVLTree.node (AVLTree.node .leaf 1 1 .leaf) 2 2
            (AVLTree.node .leaf 3 1 .leaf)) ≠ .leaf ∧
          ((AVLTree.node (AVLTree.node .leaf 1 1 .leaf) 2 2
              (AVLTree.node .leaf 3 1 .leaf)).bFactor < 0 →
            ∃ a ak ah b, (AVLTree.node (AVLTree.node .leaf 1 1 .leaf) 2 2
                (AVLTree.node .leaf 3 1 .leaf)) = AVLTree.node a ak ah b ∧
              b ≠ .leaf) ∧
          (if (AVLTree.node (AVLTree.node .leaf 1 1 .leaf) 2 2
              (AVLTree.node .leaf 3 1 .leaf)).bFactor < 0 then
            (AVLTree.node (AVLTree.node .leaf 1 1 .leaf) 2 2
              (AVLTree.node .leaf 3 1 .leaf)).rotateLeft
          else AVLTree.node (AVLTree.node .leaf 1 1 .leaf) 2 2
              (AVLTree.node .leaf 3 1 .leaf)) ≠ .leaf) ∧
      ((AVLTree.node (AVLTree.node .leaf 1 1 .leaf) 2 2
          (AVLTree.node .leaf 3 1 .leaf)).hc - AVLTree.leaf.hc = -2 →
        AVLTree.leaf ≠ AVLTree.leaf ∧
          (AVLTree.leaf.bFactor > 0 →
            ∃ a ak ah b, AVLTree.leaf = AVLTree.node a ak ah b ∧
              a ≠ .leaf) ∧
          (if AVLTree.leaf.bFactor > 0 then AVLTree.leaf.rotateRight
           else AVLTree.leaf) ≠ .leaf)) :=
  ⟨⟨by decide, by decide⟩,
    claim_C10 (AVLTree.node (AVLTree.node .leaf 1 1 .leaf) 2 2
        (AVLTree.node .leaf 3 1 .leaf)) AVLTree.leaf
      (by decide) (by decide)⟩

theorem bst_getFuel_eq : ∀ (t : BSTree) (fuel : Nat) (key : Int),
    t.size < fuel → BSTree.getFuel fuel t key = some (t.get key) := by
  intro t
  induction t with
  | leaf =>
    intro fuel key hf
    cases fuel with
    | zero => omega
    | succ n => rfl
  | node l k r ihl ihr =>
    intro fuel key hf
    cases fuel with
    | zero => omega
    | succ n =>
      simp only [BSTree.size] at hf
      have hl : l.size < n := by omega
      have hr : r.size < n := by omega
      by_cases h1 : key < k
      · simp only [BSTree.getFuel, BSTree.get, if_pos h1]
        exact ihl n key hl
      · by_cases h2 : k < key
        · simp only [BSTree.getFuel, BSTree.get, gt_iff_lt, if_neg h1,
            if_pos h2]
          exact ihr n key hr
        · simp only [BSTree.getFuel, BSTree.get, gt_iff_lt, if_neg h1,
            if_neg h2]

theorem bst_insertFuel_eq : ∀ (t : BSTree) (fuel : Nat) (key : Int),
    t.size < fuel → BSTree.insertFuel fuel t key = some (t.insert key) := by
  intro t
  induction t with
  | leaf =>
    intro fuel key hf
    cases fuel with
    | zero => omega
    | succ n => rfl
  | node l k r ihl ihr =>
    intro fuel key hf
    cases fuel with
    | zero => omega
    | succ n =>
      simp only [BSTree.size] at hf
      have hl : l.size < n := by omega
      have hr : r.size < n := by omega
      by_cases h1 : key < k
      · simp only [BSTree.insertFuel, BSTree.insert, if_pos h1,
          ihl n key hl]
      · by_cases h2 : k < key
        · simp only [BSTree.insertFuel, BSTree.insert, gt_iff_lt,
            if_neg h1, if_pos h2, ihr n key hr]
        · simp only [BSTree.insertFuel, BSTree.insert, gt_iff_lt,
            if_neg h1, if_neg h2]

theorem bst_findMaxKeyFuel_eq : ∀ (t : BSTree) (fuel : Nat),
    t.size < fuel → BSTree.findMaxKeyFuel fuel t = some t.findMaxKey := by
  intro t
  induction t with
  | leaf =>
    intro fuel hf
    cases fuel with
    | zero => omega
    | succ n => rfl
  | node l k r ihl ihr =>
    intro fuel hf
    cases fuel with
    | zero => omega
    | succ n =>
      simp only [BSTree.size] at hf
      cases r with
      | leaf => rfl
      | node rl rk rr =>
        simp only [BSTree.findMaxKeyFuel, BSTree.findMaxKey]
        exact ihr n (by simp only [BSTree.size] at hf ⊢; omega)

theorem bst_findMinKeyFuel_eq : ∀ (t : BSTree) (fuel : Nat),
    t.size < fuel → BSTree.findMinKeyFuel fuel t = some t.findMinKey := by
  intro t
  induction t with
  | leaf =>
    intro fuel hf
    cases fuel with
    | zero => omega
    | succ n => rfl
  | node l k r ihl ihr =>
    intro fuel hf
    cases fuel with
    | zero => omega
    | succ n =>
      simp only [BSTree.size] at hf
      cases l with
      | leaf => rfl
      | node ll lk lr =>
        simp only [BSTree.findMinKeyFuel, BSTree.findMinKey]
        exact ihl n (by simp only [BSTree.size] at hf ⊢; omega)

theorem bst_detachMaxFuel_eq : ∀ (t : BSTree) (fuel : Nat),
    t.size < fuel → BSTree.detachMaxFuel fuel t = some t.detachMax := by
  intro t
  induction t with
  | leaf =>
    intro fuel hf
    cases fuel with
    | zero => omega
    | succ n => rfl
  | node l k r ihl ihr =>
    intro fuel hf
    cases fuel with
    | zero => omega
    | succ n =>
      simp only [BSTree.size] at hf
      cases r with
      | leaf => rfl
      | node rl rk rr =>
        simp only [BSTree.detachMaxFuel, BSTree.detachMax]
        rw [ihr n (by simp only [BSTree.size] at hf ⊢; omega)]

theorem bst_attachMaxFuel_eq : ∀ (t s : BSTree) (fuel : Nat),
    t.size < fuel → BSTree.attachMaxFuel fuel t s = some (t.attachMax s) := by
  intro t
  induction t with
  | leaf =>
    intro s fuel hf
    cases fuel with
    | zero => omega
    | succ n => rfl
  | node l k r ihl ihr =>
    intro s fuel hf
    cases fuel with
    | zero => omega
    | succ n =>
      simp only [BSTree.size] at hf
      cases r with
      | leaf => rfl
      | node rl rk rr =>
        simp only [BSTree.attachMaxFuel, BSTree.attachMax]
        rw [ihr s n (by simp only [BSTree.size] at hf ⊢; omega)]

theorem bst_removeByCopyFuel_eq : ∀ (t : BSTree) (fuel : Nat) (key : Int),
    t.size < fuel →
    BSTree.removeByCopyFuel fuel t key = some (t.removeByCopy key) := by
  intro t
  induction t with
  | leaf =>
    intro fuel key hf
    cases fuel with
    | zero => omega
    | succ n => rfl
  | node l k r ihl ihr =>
    intro fuel key hf
    cases fuel with
    | zero => omega
    | succ n =>
      simp only [BSTree.size] at hf
      have hl : l.size < n := by omega
      have hr : r.size < n := by omega
      by_cases h1 : k > key
      · simp only [BSTree.removeByCopyFuel, BSTree.removeByCopy,
          if_pos h1, ihl n key hl]
      · by_cases h2 : k < key
        · simp only [BSTree.removeByCopyFuel, BSTree.removeByCopy,
            if_neg h1, if_pos h2, ihr n key hr]
        · cases l with
          | leaf =>
            simp only [BSTree.removeByCopyFuel, BSTree.removeByCopy,
              if_neg h1, if_neg h2]
          | node ll lk lr =>
            simp only [BSTree.removeByCopyFuel, BSTree.removeByCopy,
              if_neg h1, if_neg h2,
              bst_detachMaxFuel_eq (BSTree.node ll lk lr) n hl]

theorem bst_removeByFusionFuel_eq : ∀ (t : BSTree) (fuel : Nat) (key : Int),
    t.size < fuel →
    BSTree.removeByFusionFuel fuel t key = some (t.removeByFusion key) := by
  intro t
  induction t with
  | leaf =>
    intro fuel key hf
    cases fuel with
    | zero => omega
    | succ n => rfl
  | node l k r ihl ihr =>
    intro fuel key hf
    cases fuel with
    | zero => omega
    | succ n =>
      simp only [BSTree.size] at hf
      have hl : l.size < n := by omega
      have hr : r.size < n := by omega
      by_cases h1 : k > key
      · simp only [BSTree.removeByFusionFuel, BSTree.removeByFusion,
          if_pos h1, ihl n key hl]
      · by_cases h2 : k < key
        · simp only [BSTree.removeByFusionFuel, BSTree.removeByFusion,
            if_neg h1, if_pos h2, ihr n key hr]
        · cases l with
          | leaf =>
            simp only [BSTree.removeByFusionFuel, BSTree.removeByFusion,
              if_neg h1, if_neg h2]
          | node ll lk lr =>
            simp only [BSTree.removeByFusionFuel, BSTree.removeByFusion,
              if_neg h1, if_neg h2,
              bst_attachMaxFuel_eq (BSTree.node ll lk lr) r n hl]

theorem bst_removeMaxFuel_eq : ∀ (t : BSTree) (fuel : Nat),
    t.size + 1 < fuel →
    BSTree.removeMaxFuel fuel t = some t.removeMax := by
  intro t
  induction t with
  | leaf =>
    intro fuel hf
    cases fuel with
    | zero => omega
    | succ n => rfl
  | node l k r ihl ihr =>
    intro fuel hf
    cases fuel with
    | zero => omega
    | succ n =>
      simp only [BSTree.size] at hf
      cases r with
      | leaf =>
        simp only [BSTree.removeMaxFuel, BSTree.removeMax]
        exact bst_removeByFusionFuel_eq (BSTree.node l k .leaf) n k
          (by simp only [BSTree.size]; omega)
      | node rl rk rr =>
        simp only [BSTree.removeMaxFuel, BSTree.removeMax]
        rw [ihr n (by simp only [BSTree.size] at hf ⊢; omega)]

theorem bst_removeMinFuel_eq : ∀ (t : BSTree) (fuel : Nat),
    t.size + 1 < fuel →
    BSTree.removeMinFuel fuel t = some t.removeMin := by
  intro t
  induction t with
  | leaf =>
    intro fuel hf
    cases fuel with
    | zero => omega
    | succ n => rfl
  | node l k r ihl ihr =>
    intro fuel hf
    cases fuel with
    | zero => omega
    | succ n =>
      simp only [BSTree.size] at hf
      cases l with
      | leaf =>
        simp only [BSTree.removeMinFuel, BSTree.removeMin]
        exact bst_removeByFusionFuel_eq (BSTree.node .leaf k r) n k
          (by simp only [BSTree.size]; omega)
      | node ll lk lr =>
        simp only [BSTree.removeMinFuel, BSTree.removeMin]
        rw [ihl n (by simp only [BSTree.size] at hf ⊢; omega)]

theorem bst_destroyFuel_eq : ∀ (t : BSTree) (fuel : Nat),
    t.size < fuel → BSTree.destroyFuel fuel t = some () := by
  intro t
  induction t with
  | leaf =>
    intro fuel hf
    cases fuel with
    | zero => omega
    | succ n => rfl
  | node l k r ihl ihr =>
    intro fuel hf
    cases fuel with
    | zero => omega
    | succ n =>
      simp only [BSTree.size] at hf
      simp only [BSTree.destroyFuel, ihl n (by omega), ihr n (by omega)]

theorem bst_inorderFuel_eq : ∀ (t : BSTree) (fuel : Nat),
    t.size < fuel → BSTree.inorderFuel fuel t = some t.inorder := by
  intro t
  induction t with
  | leaf =>
    intro fuel hf
    cases fuel with
    | zero => omega
    | succ n => rfl
  | node l k r ihl ihr =>
    intro fuel hf
    cases fuel with
    | zero => omega
    | succ n =>
      simp only [BSTree.size] at hf
      simp only [BSTree.inorderFuel, BSTree.inorder, ihl n (by omega),
        ihr n (by omega)]

theorem bst_preorderFuel_eq : ∀ (t : BSTree) (fuel : Nat),
    t.size < fuel → BSTree.preorderFuel fuel t = some t.preorder := by
  intro t
  induction t with
  | leaf =>
    intro fuel hf
    cases fuel with
    | zero => omega
    | succ n => rfl
  | node l k r ihl ihr =>
    intro fuel hf
    cases fuel with
    | zero => omega
    | succ n =>
      simp only [BSTree.size] at hf
      simp only [BSTree.preorderFuel, BSTree.preorder, ihl n (by omega),
        ihr n (by omega)]

theorem bst_postorderFuel_eq : ∀ (t : BSTree) (fuel : Nat),
    t.size < fuel → BSTree.postorderFuel fuel t = some t.postorder := by
  intro t
  induction t with
  | leaf =>
    intro fuel hf
    cases fuel with
    | zero => omega
    | succ n => rfl
  | node l k r ihl ihr =>
    intro fuel hf
    cases fuel with
    | zero => omega
    | succ n =>
      simp only [BSTree.size] at hf
      simp only [BSTree.postorderFuel, BSTree.postorder, ihl n (by omega),
        ihr n (by omega)]

theorem avl_insertFuel_eq : ∀ (t : AVLTree) (fuel : Nat) (key : Int),
    t.size < fuel → AVLTree.insertFuel fuel t key = some (t.insert key) := by
  intro t
  induction t with
  | leaf =>
    intro fuel key hf
    cases fuel with
    | zero => omega
    | succ n => rfl
  | node l k h r ihl ihr =>
    intro fuel key hf
    cases fuel with
    | zero => omega
    | succ n =>
      simp only [AVLTree.size] at hf
      have hl : l.size < n := by omega
      have hr : r.size < n := by omega
      by_cases h0 : key = k
      · simp only [AVLTree.insertFuel, AVLTree.insert, if_pos h0]
      · by_cases h1 : key < k
        · simp only [AVLTree.insertFuel, AVLTree.insert, if_neg h0,
            if_pos h1, ihl n key hl]
        · simp only [AVLTree.insertFuel, AVLTree.insert, if_neg h0,
            if_neg h1, ihr n key hr]

theorem avl_pullMaxFuel_eq : ∀ (t : AVLTree) (fuel : Nat),
    t.size < fuel → AVLTree.pullMaxFuel fuel t = some t.pullMax := by
  intro t
  induction t with
  | leaf =>
    intro fuel hf
    cases fuel with
    | zero => omega
    | succ n => rfl
  | node l k h r ihl ihr =>
    intro fuel hf
    cases fuel with
    | zero => omega
    | succ n =>
      simp only [AVLTree.size] at hf
      cases r with
      | leaf => rfl
      | node rl rk rh rr =>
        simp only [AVLTree.pullMaxFuel, AVLTree.pullMax]
        rw [ihr n (by simp only [AVLTree.size] at hf ⊢; omega)]

theorem avl_removeFuel_eq : ∀ (t : AVLTree) (fuel : Nat) (key : Int),
    t.size < fuel → AVLTree.removeFuel fuel t key = some (t.remove key) := by
  intro t
  induction t with
  | leaf =>
    intro fuel key hf
    cases fuel with
    | zero => omega
    | succ n => rfl
  | node l k h r ihl ihr =>
    intro fuel key hf
    cases fuel with
    | zero => omega
    | succ n =>
      simp only [AVLTree.size] at hf
      have hl : l.size < n := by omega
      have hr : r.size < n := by omega
      by_cases h1 : key < k
      · simp only [AVLTree.removeFuel, AVLTree.remove, if_pos h1,
          ihl n key hl]
      · by_cases h2 : key > k
        · simp only [AVLTree.removeFuel, AVLTree.remove, gt_iff_lt,
            if_neg h1, if_pos h2, ihr n key hr]
        · cases l with
          | leaf =>
            simp only [AVLTree.removeFuel, AVLTree.remove, gt_iff_lt,
              if_neg h1, if_neg h2]
          | node ll lk lh lr =>
            simp only [AVLTree.removeFuel, AVLTree.remove, gt_iff_lt,
              if_neg h1, if_neg h2,
              avl_pullMaxFuel_eq (AVLTree.node ll lk lh lr) n hl]

theorem avl_removeMaxFuel_eq : ∀ (t : AVLTree) (fuel : Nat),
    t.size + 1 < fuel →
    AVLTree.removeMaxFuel fuel t = some t.removeMax := by
  intro t
  induction t with
  | leaf =>
    intro fuel hf
    cases fuel with
    | zero => omega
    | succ n => rfl
  | node l k h r ihl ihr =>
    intro fuel hf
    cases fuel with
    | zero => omega
    | succ n =>
      simp only [AVLTree.size] at hf
      cases r with
      | leaf =>
        simp only [AVLTree.removeMaxFuel, AVLTree.removeMax]
        exact avl_removeFuel_eq (AVLTree.node l k h .leaf) n k
          (by simp only [AVLTree.size]; omega)
      | node rl rk rh rr =>
        simp only [AVLTree.removeMaxFuel, AVLTree.removeMax]
        rw [ihr n (by simp only [AVLTree.size] at hf ⊢; omega)]

theorem avl_removeMinFuel_eq : ∀ (t : AVLTree) (fuel : Nat),
    t.size + 1 < fuel →
    AVLTree.removeMinFuel fuel t = some t.removeMin := by
  intro t
  induction t with
  | leaf =>
    intro fuel hf
    cases fuel with
    | zero => omega
    | succ n => rfl
  | node l k h r ihl ihr =>
    intro fuel hf
    cases fuel with
    | zero => omega
    | succ n =>
      simp only [AVLTree.size] at hf
      cases l with
      | leaf =>
        simp only [AVLTree.removeMinFuel, AVLTree.removeMin]
        exact avl_removeFuel_eq (AVLTree.node .leaf k h r) n k
          (by simp only [AVLTree.size]; omega)
      | node ll lk lh lr =>
        simp only [AVLTree.removeMinFuel, AVLTree.removeMin]
        rw [ihl n (by simp only [AVLTree.size] at hf ⊢; omega)]

/-- C9: every public operation and every internal recursion of the two
trees terminates on every finite tree: each recursion, modelled with an
explicit fuel counter that fails with `none` when exhausted, already
succeeds and computes the (total) reference function when given fuel
bounded by the node count of the tree — so all the recursions
(including `findMax`, `findMin` and the AVL `pullMax`) are well-founded
with recursion depth at most `size + 2`. -/
theorem claim_C9 (t : BSTree) (ta : AVLTree) (key : Int) (s : BSTree) :
    BSTree.getFuel (t.size + 1) t key = some (t.get key) ∧
      BSTree.insertFuel (t.size + 1) t key = some (t.insert key) ∧
      BSTree.removeByCopyFuel (t.size + 1) t key
        = some (t.removeByCopy key) ∧
      BSTree.removeByFusionFuel (t.size + 1) t key
        = some (t.removeByFusion key) ∧
      BSTree.removeMaxFuel (t.size + 2) t = some t.removeMax ∧
      BSTree.removeMinFuel (t.size + 2) t = some t.removeMin ∧
      BSTree.findMaxKeyFuel (t.size + 1) t = some t.findMaxKey ∧
      BSTree.findMinKeyFuel (t.size + 1) t = some t.findMinKey ∧
      BSTree.detachMaxFuel (t.size + 1) t = some t.detachMax ∧
      BSTree.attachMaxFuel (t.size + 1) t s = some (t.attachMax s) ∧
      BSTree.destroyFuel (t.size + 1) t = some () ∧
      BSTree.inorderFuel (t.size + 1) t = some t.inorder ∧
      BSTree.preorderFuel (t.size + 1) t = some t.preorder ∧
      BSTree.postorderFuel (t.size + 1) t = some t.postorder ∧
      AVLTree.insertFuel (ta.size + 1) ta key = some (ta.insert key) ∧
      AVLTree.removeFuel (ta.size + 1) ta key = some (ta.remove key) ∧
      AVLTree.removeMaxFuel (ta.size + 2) ta = some ta.removeMax ∧
      AVLTree.removeMinFuel (ta.size + 2) ta = some ta.removeMin ∧
      AVLTree.pullMaxFuel (ta.size + 1) ta = some ta.pullMax :=
  ⟨bst_getFuel_eq t _ key (by omega),
    bst_insertFuel_eq t _ key (by omega),
    bst_removeByCopyFuel_eq t _ key (by omega),
    bst_removeByFusionFuel_eq t _ key (by omega),
    bst_removeMaxFuel_eq t _ (by omega),
    bst_removeMinFuel_eq t _ (by omega),
    bst_findMaxKeyFuel_eq t _ (by omega),
    bst_findMinKeyFuel_eq t _ (by omega),
    bst_detachMaxFuel_eq t _ (by omega),
    bst_attachMaxFuel_eq t s _ (by omega),
    bst_destroyFuel_eq t _ (by omega),
    bst_inorderFuel_eq t _ (by omega),
    bst_preorderFuel_eq t _ (by omega),
    bst_postorderFuel_eq t _ (by omega),
    avl_insertFuel_eq ta _ key (by omega),
    avl_removeFuel_eq ta _ key (by omega),
    avl_removeMaxFuel_eq ta _ (by omega),
    avl_removeMinFuel_eq ta _ (by omega),
    avl_pullMaxFuel_eq ta _ (by omega)⟩
